import Mathlib

/-!
# Advent of Code 2024, day 1 (`Day 1/main.go`): fetch, parse, similarity score

A shallow embedding of `fetchData`, `parseInput` and `computeSimilarityScore`.

Modelling conventions.

* Go `int` is the 64-bit two's-complement integer of a 64-bit platform. Values are
  Lean `Int`s and every arithmetic operation of the source is followed by `wrapInt`,
  reduction modulo `2^64` into `[-2^63, 2^63)`.
* A Go `string` / `[]byte` holding text is a `List Char` (the sequence of its runes);
  the input is taken to be valid UTF-8.
* A Go `map[int]int` is an association list with at most one entry per key; a lookup
  of an absent key yields the zero value `0`.
* Functions with several return values return a structure with one field per value;
  a `nil` slice is the empty list and a `nil` error is `none`.
* The library functions `strings.TrimSpace`, `strings.Split`, `strings.Fields`,
  `fmt.Sscanf` (for the format `%d`) and `strconv.ParseInt` are modelled after the Go
  standard library. The scanner's internal read limit of `2^30` runes per operand is
  not modelled.
-/

namespace Day1

/-! ## Machine integers -/

/-- Number of values of a Go `int` on a 64-bit platform. -/
def intModulus : Int := 2 ^ 64

/-- Smallest Go `int`. -/
def minInt : Int := -(2 ^ 63)

/-- Largest Go `int`. -/
def maxInt : Int := 2 ^ 63 - 1

/-- Two's-complement wrap-around of a mathematical integer to a Go `int`. -/
def wrapInt (x : Int) : Int := (x + 2 ^ 63) % 2 ^ 64 - 2 ^ 63

/-- The predicate "fits in a Go `int`". -/
def inIntRange (x : Int) : Prop := minInt ≤ x ∧ x ≤ maxInt

instance (x : Int) : Decidable (inIntRange x) := by
  unfold inIntRange; infer_instance

/-! ## `map[int]int` -/

/-- Go map from `int` to `int`: association list, one entry per key. -/
abbrev IntMap := List (Int × Int)

/-- Read `m[k]`: the stored value, or the zero value when `k` is absent. -/
def mapGet : IntMap → Int → Int
  | [], _ => 0
  | (k', v) :: rest, k => if k' = k then v else mapGet rest k

/-- Assign `m[k] = v`: overwrite the entry of `k` or add one. -/
def mapSet : IntMap → Int → Int → IntMap
  | [], k, v => [(k, v)]
  | (k', v') :: rest, k, v => if k' = k then (k, v) :: rest else (k', v') :: mapSet rest k v

/-! ## `computeSimilarityScore` -/

/-- First loop of `computeSimilarityScore`: `rightCount[num]++` for every `num` of `right`. -/
def countRight (right : List Int) : IntMap :=
  right.foldl (fun rightCount num => mapSet rightCount num (wrapInt (mapGet rightCount num + 1))) []

/-- Go `computeSimilarityScore(left, right []int) int`. -/
def computeSimilarityScore (left right : List Int) : Int :=
  let rightCount := countRight right
  left.foldl (fun similarityScore num =>
    let count := mapGet rightCount num
    wrapInt (similarityScore + wrapInt (num * count))) 0

/-- The specification's similarity score over the mathematical integers: the sum over
the elements `v` of `left` of `v` times the number of occurrences of `v` in `right`. -/
def similaritySum (left right : List Int) : Int :=
  (left.map (fun v => v * (right.count v : Int))).sum

/-! ## Text primitives of the Go standard library -/

/-- Go `unicode.IsSpace` (and the identical table used by the scanner of `fmt`): the
Unicode White_Space property. -/
def isSpace (c : Char) : Bool :=
  let n := c.toNat
  (9 ≤ n && n ≤ 13) || n == 0x20 || n == 0x85 || n == 0xA0 || n == 0x1680 ||
    (0x2000 ≤ n && n ≤ 0x200A) || n == 0x2028 || n == 0x2029 || n == 0x202F ||
    n == 0x205F || n == 0x3000

/-- Go `strings.TrimSpace`: drop the leading and the trailing white space. -/
def TrimSpace (s : List Char) : List Char :=
  ((s.dropWhile isSpace).reverse.dropWhile isSpace).reverse

/-- Scan of `strings.Split(s, sep)` for a one-character separator; `cur` holds the
characters of the piece being read, most recent first. -/
def splitAux (sep : Char) : List Char → List Char → List (List Char)
  | cur, [] => [cur.reverse]
  | cur, c :: cs => if c = sep then cur.reverse :: splitAux sep [] cs else splitAux sep (c :: cur) cs

/-- Go `strings.Split(s, "\n")`: the pieces between the newlines, at least one piece. -/
def Split (s : List Char) : List (List Char) := splitAux '\n' [] s

/-- Scan of `strings.Fields`; `cur` holds the characters of the field being read, most
recent first (empty when no field is open). -/
def fieldsAux : List Char → List Char → List (List Char)
  | cur, [] => if cur = [] then [] else [cur.reverse]
  | cur, c :: cs =>
    if isSpace c then
      (if cur = [] then fieldsAux [] cs else cur.reverse :: fieldsAux [] cs)
    else fieldsAux (c :: cur) cs

/-- Go `strings.Fields`: the maximal runs of non-space characters. -/
def Fields (s : List Char) : List (List Char) := fieldsAux [] s

/-! ## `strconv.ParseInt(tok, 10, 64)` -/

/-- Failure kinds of `strconv`. -/
inductive NumError where
  | malformed
  | out_of_range
  deriving DecidableEq, Repr

/-- The loop of `strconv.ParseUint(s, 10, 64)`: `n` is the value read so far. -/
def parseUintLoop : List Char → Nat → Except NumError Nat
  | [], n => .ok n
  | c :: cs, n =>
    if 48 ≤ c.toNat ∧ c.toNat ≤ 57 then
      let d := c.toNat - 48
      if n ≥ (2 ^ 64 - 1) / 10 + 1 then .error .out_of_range
      else
        let n10 := n * 10 % 2 ^ 64
        let n1 := (n10 + d) % 2 ^ 64
        if n1 < n10 ∨ n1 > 2 ^ 64 - 1 then .error .out_of_range
        else parseUintLoop cs n1
    else .error .malformed

/-- Go `strconv.ParseUint(s, 10, 64)`. -/
def ParseUint (s : List Char) : Except NumError Nat :=
  if s = [] then .error .malformed else parseUintLoop s 0

/-- Go `strconv.ParseInt(s, 10, 64)`: optional sign, then `ParseUint`, then the range
check against `2^63`. -/
def ParseInt (s : List Char) : Except NumError Int :=
  match s with
  | [] => .error .malformed
  | c :: cs =>
    let neg := decide (c = '-')
    let body := if c = '+' ∨ c = '-' then cs else c :: cs
    match ParseUint body with
    | .error e => .error e
    | .ok un =>
      if ¬ neg ∧ un ≥ 2 ^ 63 then .error .out_of_range
      else if neg ∧ un > 2 ^ 63 then .error .out_of_range
      else
        let n := wrapInt un
        .ok (if neg then wrapInt (-n) else n)

/-! ## `fmt.Sscanf(tok, "%d", &v)` -/

/-- Failure kinds of the scan of one `%d` operand: a newline where an operand is
expected, the end of the input before the operand is complete, a character that cannot
start a number, and a conversion failure reported by `strconv`. -/
inductive ScanError where
  | unexpected_newline
  | end_of_input
  | expected_integer
  | number (e : NumError)
  deriving DecidableEq, Repr

/-- The characters accepted as a sign by the scanner. -/
def sign : List Char := "+-".toList

/-- The characters accepted as decimal digits by the scanner. -/
def decimalDigits : List Char := "0123456789".toList

/-- The scanner's `SkipSpace` with newlines significant: white space is skipped, a
newline is an error. -/
def SkipSpace : List Char → Except ScanError (List Char)
  | [] => .ok []
  | c :: cs =>
    if c = '\r' ∧ cs.head? = some '\n' then SkipSpace cs
    else if c = '\n' then .error .unexpected_newline
    else if isSpace c then SkipSpace cs
    else .ok (c :: cs)

/-- The scanner's `scanInt` for the verb `d`: skip space, accept one sign, require a
digit, read the run of digits and convert the token read with `ParseInt`. What follows
the digits stays unread. -/
def scanInt (s : List Char) : Except ScanError Int :=
  match SkipSpace s with
  | .error e => .error e
  | .ok [] => .error .end_of_input
  | .ok (c :: cs) =>
    let buf := if sign.contains c then [c] else []
    let rest := if sign.contains c then cs else c :: cs
    match rest with
    | [] => .error .end_of_input
    | d :: ds =>
      if decimalDigits.contains d then
        match ParseInt (buf ++ d :: ds.takeWhile decimalDigits.contains) with
        | .error e => .error (.number e)
        | .ok i => .ok i
      else .error .expected_integer

/-- Go `fmt.Sscanf(str, "%d", &v)`: the format has the single verb `%d`, so the scan
skips space, reads one integer and returns; input left over is not an error. -/
def Sscanf (str : List Char) : Except ScanError Int :=
  match SkipSpace str with
  | .error e => .error e
  | .ok s => scanInt s

/-! ## `parseInput` -/

/-- The `error` values `parseInput` returns. -/
inductive ParseError where
  | errorf (message : List Char)
  | scan (e : ScanError)
  deriving DecidableEq, Repr

/-- The three values returned by `parseInput`. -/
structure ParseResult where
  left : List Int
  right : List Int
  err : Option ParseError
  deriving DecidableEq, Repr

/-- Go `fmt.Errorf("invalid input line: %s", line)`. -/
def invalidLineError (line : List Char) : ParseError :=
  .errorf ("invalid input line: ".toList ++ line)

/-- The `for _, line := range lines` loop of `parseInput`, started with the slices
`left` and `right` built so far. -/
def parseLines : List (List Char) → List Int → List Int → ParseResult
  | [], left, right => ⟨left, right, none⟩
  | line :: lines, left, right =>
    let numbers := Fields line
    if numbers.length ≠ 2 then ⟨[], [], some (invalidLineError line)⟩
    else
      match Sscanf (numbers.getD 0 []) with
      | .error e => ⟨[], [], some (.scan e)⟩
      | .ok l =>
        match Sscanf (numbers.getD 1 []) with
        | .error e => ⟨[], [], some (.scan e)⟩
        | .ok r => parseLines lines (left ++ [l]) (right ++ [r])

/-- Go `parseInput(data []byte) ([]int, []int, error)`. -/
def parseInput (data : List Char) : ParseResult :=
  let lines := Split (TrimSpace data)
  parseLines lines [] []

/-! ## Integer literals, as the specification describes them -/

/-- A decimal digit `0` to `9`. -/
def isDecimalDigit (c : Char) : Bool := '0'.toNat ≤ c.toNat && c.toNat ≤ '9'.toNat

/-- The digits after an optional leading sign. -/
def unsignedPart : List Char → List Char
  | c :: cs => if c = '+' ∨ c = '-' then cs else c :: cs
  | [] => []

/-- A base-10 integer literal: an optional sign followed only by decimal digits, at
least one. -/
def isIntLiteral (tok : List Char) : Bool :=
  !(unsignedPart tok).isEmpty && (unsignedPart tok).all isDecimalDigit

/-- Positional value of a digit string, most significant digit first. -/
def digitsValue : List Char → Nat
  | [] => 0
  | c :: cs => (c.toNat - '0'.toNat) * 10 ^ cs.length + digitsValue cs

/-- The integer an integer literal denotes. -/
def literalValue : List Char → Int
  | [] => 0
  | c :: cs =>
    if c = '-' then -(digitsValue cs : Int)
    else if c = '+' then (digitsValue cs : Int)
    else (digitsValue (c :: cs) : Int)

/-- A token that begins with an integer literal: an optional sign and then a decimal
digit. -/
def startsWithIntLiteral (tok : List Char) : Bool :=
  match unsignedPart tok with
  | d :: _ => isDecimalDigit d
  | [] => false

/-- A token that is a base-10 integer literal whose value fits in a Go `int`. -/
def isIntToken (tok : List Char) : Bool :=
  isIntLiteral tok && decide (inIntRange (literalValue tok))

/-- The integer literal a token begins with: its sign, if it has one, and the maximal
run of decimal digits that follows. -/
def leadingLiteral : List Char → List Char
  | [] => []
  | c :: cs =>
    if c = '+' ∨ c = '-' then c :: cs.takeWhile isDecimalDigit
    else (c :: cs).takeWhile isDecimalDigit

/-- A token that begins with a base-10 integer literal within `int` range: after an
optional sign it has at least one decimal digit, and the value of the sign and the
maximal run of digits fits in a Go `int`. -/
def hasLeadingInt (tok : List Char) : Bool := isIntToken (leadingLiteral tok)

/-- A well-formed line: it splits into exactly two tokens, both integers in range. -/
def wellFormedLine (line : List Char) : Bool :=
  match Fields line with
  | [a, b] => isIntToken a && isIntToken b
  | _ => false

/-- A row of the two-column input: two tokens and the run of white space between. -/
structure Row where
  first : List Char
  gap : List Char
  second : List Char

/-- The line of text a row stands for. -/
def Row.text (r : Row) : List Char := r.first ++ r.gap ++ r.second

/-- A row made of two integer tokens in range separated by a non-empty run of white
space that stays on the line. -/
def Row.valid (r : Row) : Bool :=
  isIntToken r.first && isIntToken r.second && !r.gap.isEmpty &&
    r.gap.all (fun c => isSpace c && c != '\n')

/-- The text whose newline-separated lines are `lines`. -/
def joinLines : List (List Char) → List Char
  | [] => []
  | [l] => l
  | l :: ls => l ++ '\n' :: joinLines ls

/-! ## `fetchData` -/

/-- Go `validCookieValueByte` of `net/http`: a printable ASCII character other than
the double quote (0x22), the semicolon (0x3B) and the backslash (0x5C). -/
def validCookieValueByte (c : Char) : Bool :=
  0x20 ≤ c.toNat && c.toNat < 0x7F && c.toNat != 0x22 && c.toNat != 0x3B && c.toNat != 0x5C

/-- Go `sanitizeCookieValue` of `net/http`, which `req.AddCookie` applies to the value
of the cookie: the invalid characters are dropped, and what is left is put between
double quotes when it holds a space or a comma. -/
def sanitizeCookieValue (v : List Char) : List Char :=
  let kept := v.filter validCookieValueByte
  if kept = [] then kept
  else if kept.any (fun c => c == ' ' || c == ',') then
    Char.ofNat 0x22 :: kept ++ [Char.ofNat 0x22]
  else kept

/-- Go `*http.Request` as far as `fetchData` fills it in: the method, the URL, and the
name and the value of the cookie as `req.AddCookie` writes them into the request. -/
structure Request where
  method : List Char
  url : List Char
  cookieName : List Char
  cookieValue : List Char
  deriving DecidableEq, Repr

/-- Go `*http.Response` as far as `fetchData` reads it: the status code, the bytes
`ioutil.ReadAll(resp.Body)` yields and the read error it reports, if any. -/
structure Response where
  StatusCode : Int
  Body : List Char
  readErr : Option (List Char)
  deriving DecidableEq, Repr

/-- The HTTP stack `fetchData` calls into: `http.NewRequest` (its error, if any) and
`client.Do`. -/
structure Transport where
  NewRequest : List Char → List Char → Option (List Char)
  Do : Request → Except (List Char) Response

/-- The `error` values `fetchData` returns. -/
inductive FetchError where
  | request (message : List Char)
  | transport (message : List Char)
  | read (message : List Char)
  | errorf (message : List Char)
  deriving DecidableEq, Repr

/-- Text of a `FetchError`, its `Error()` string. -/
def FetchError.message : FetchError → List Char
  | .request m => m
  | .transport m => m
  | .read m => m
  | .errorf m => m

/-- The two values returned by `fetchData`. -/
structure FetchResult where
  data : List Char
  err : Option FetchError
  deriving DecidableEq, Repr

/-- Go `%d` of an `int`: decimal digits, with a leading minus sign when negative. -/
def formatInt (i : Int) : List Char :=
  if i < 0 then '-' :: Nat.toDigits 10 i.natAbs else Nat.toDigits 10 i.toNat

/-- Go `http.StatusOK`. -/
def StatusOK : Int := 200

/-- Go `fetchData(url, sessionCookie string) ([]byte, error)` over a transport. -/
def fetchData (net : Transport) (url sessionCookie : List Char) : FetchResult :=
  match net.NewRequest "GET".toList url with
  | some e => ⟨[], some (.request e)⟩
  | none =>
    let req : Request :=
      ⟨"GET".toList, url, "session".toList, sanitizeCookieValue sessionCookie⟩
    match net.Do req with
    | .error e => ⟨[], some (.transport e)⟩
    | .ok resp =>
      if resp.StatusCode ≠ StatusOK then
        let body := resp.Body
        ⟨[], some (.errorf ("HTTP request failed with status code ".toList ++
          formatInt resp.StatusCode ++ ", response: ".toList ++ body))⟩
      else
        match resp.readErr with
        | some e => ⟨resp.Body, some (.read e)⟩
        | none => ⟨resp.Body, none⟩

/-! ## `main` -/

/-- Go `a + b` on two `int`s. -/
def addInt (a b : Int) : Int := wrapInt (a + b)

/-- The calls of `client.Do` that `fetchData` makes: none when `http.NewRequest` fails,
otherwise one, with the request it has built. -/
def fetchDataRequests (net : Transport) (url sessionCookie : List Char) : List Request :=
  match net.NewRequest "GET".toList url with
  | some _ => []
  | none => [⟨"GET".toList, url, "session".toList, sanitizeCookieValue sessionCookie⟩]

/-- Text of a `ParseError`, its `Error()` string. The wording of the errors that come
from the scanner and from `strconv` belongs to the library and is the parameter
`scanText`. -/
def ParseError.message (scanText : ScanError → List Char) : ParseError → List Char
  | .errorf m => m
  | .scan e => scanText e

/-- Go `fmt.Println(a, b)` with two operands: the operands separated by a space. The
result is one printed line, without its final newline. -/
def Println2 (a b : List Char) : List Char := a ++ ' ' :: b

/-- What a run leaves behind: the lines printed, one per `fmt.Println` call, and the
exit status of the process. -/
structure RunOutput where
  stdout : List (List Char)
  status : Int
  deriving DecidableEq, Repr

/-- The part of `main` that follows the call of `fetchData`, as a function of the two
values `fetchData` returned: report a fetch error, else parse and report a parse error,
else compute and print the score. `os.Exit(1)` is status 1, returning from `main` is
status 0. -/
def run (scanText : ScanError → List Char) (fetched : FetchResult) : RunOutput :=
  match fetched.err with
  | some err => ⟨[Println2 "Error fetching data:".toList err.message], 1⟩
  | none =>
    let parsed := parseInput fetched.data
    match parsed.err with
    | some err => ⟨[Println2 "Error parsing input:".toList (err.message scanText)], 1⟩
    | none =>
      let similarityScore := computeSimilarityScore parsed.left parsed.right
      ⟨[Println2 "Similarity score:".toList (formatInt similarityScore)], 0⟩

/-- The surroundings of a run: the error of `godotenv.Load()` if any, `os.Getenv` after
the load, the HTTP stack, and the wording of the library's scan errors. -/
structure Env where
  Load : Option (List Char)
  Getenv : List Char → List Char
  net : Transport
  scanText : ScanError → List Char

/-- A run of `main` with its effects: the output and exit status, the argument pairs
`(url, sessionCookie)` of the calls of `fetchData`, and the HTTP requests sent. -/
structure RunResult where
  stdout : List (List Char)
  status : Int
  fetchCalls : List (List Char × List Char)
  requests : List Request
  deriving DecidableEq, Repr

/-- Go `main()`. -/
def main (env : Env) : RunResult :=
  match env.Load with
  | some err => ⟨[Println2 "Error loading .env file:".toList err], 1, [], []⟩
  | none =>
    let sessionCookie := env.Getenv "SESSION".toList
    if sessionCookie = [] then
      ⟨["SESSION environment variable not set".toList], 1, [], []⟩
    else
      let day : Int := 1
      let url := "https://adventofcode.com/2024/day/".toList ++ formatInt day ++ "/input".toList
      let out := run env.scanText (fetchData env.net url sessionCookie)
      ⟨out.stdout, out.status, [(url, sessionCookie)],
        fetchDataRequests env.net url sessionCookie⟩

/-! ## The similarity score over distinct values, and the white space the
specification names -/

/-- The sum over the distinct values `v` of `xs` and `ys` of `v` times the number of
occurrences of `v` in `xs` times the number of occurrences of `v` in `ys`. -/
def distinctSum (xs ys : List Int) : Int :=
  ((xs ++ ys).dedup.map (fun v => v * (xs.count v : Int) * (ys.count v : Int))).sum

/-- The white space characters the specification names: space, tab, newline and
carriage return. -/
def isBlank (c : Char) : Bool := c == ' ' || c == '\t' || c == '\n' || c == '\r'

/-! ## Arithmetic modulo `2^64` -/

theorem wrapInt_modEq (x : Int) : wrapInt x ≡ x [ZMOD 2 ^ 64] := by
  unfold wrapInt Int.ModEq
  omega

theorem wrapInt_congr {a b : Int} (h : a ≡ b [ZMOD 2 ^ 64]) : wrapInt a = wrapInt b := by
  unfold wrapInt
  have h2 : (a + 2 ^ 63) % 2 ^ 64 = (b + 2 ^ 63) % 2 ^ 64 := Int.ModEq.add_right _ h
  rw [h2]

theorem wrapInt_of_inIntRange {x : Int} (h : inIntRange x) : wrapInt x = x := by
  unfold inIntRange minInt maxInt at h
  unfold wrapInt
  omega

theorem inIntRange_wrapInt (x : Int) : inIntRange (wrapInt x) := by
  unfold inIntRange minInt maxInt wrapInt
  omega

theorem wrapInt_wrapInt (x : Int) : wrapInt (wrapInt x) = wrapInt x :=
  wrapInt_of_inIntRange (inIntRange_wrapInt x)

/-! ## The frequency table -/

theorem mapGet_mapSet (m : IntMap) (k v k' : Int) :
    mapGet (mapSet m k v) k' = if k = k' then v else mapGet m k' := by
  induction m with
  | nil => simp [mapSet, mapGet]
  | cons p rest ih =>
    obtain ⟨a, b⟩ := p
    by_cases h : a = k
    · subst h
      simp only [mapSet, mapGet, if_true]
      split <;> rfl
    · by_cases h2 : a = k'
      · subst h2
        have h3 : ¬ k = a := fun e => h e.symm
        simp [mapSet, mapGet, h, h3]
      · simp [mapSet, mapGet, h, h2, ih]

/-- Counting loop, started from any table: every entry grows by the number of
occurrences, modulo `2^64`. -/
theorem mapGet_foldl_count (right : List Int) (m : IntMap) (k : Int) :
    mapGet (right.foldl (fun rightCount num =>
      mapSet rightCount num (wrapInt (mapGet rightCount num + 1))) m) k
      ≡ mapGet m k + (right.count k : Int) [ZMOD 2 ^ 64] := by
  induction right generalizing m with
  | nil => simp [Int.ModEq]
  | cons a rest ih =>
    rw [List.foldl_cons]
    refine (ih _).trans ?_
    rw [mapGet_mapSet]
    by_cases h : a = k
    · subst h
      simp only [if_true, List.count_cons_self, Nat.cast_add, Nat.cast_one]
      have := wrapInt_modEq (mapGet m a + 1)
      calc wrapInt (mapGet m a + 1) + (List.count a rest : Int)
          ≡ (mapGet m a + 1) + (List.count a rest : Int) [ZMOD 2 ^ 64] := this.add_right _
        _ = mapGet m a + ((List.count a rest : Int) + 1) := by ring
    · have h2 : (a == k) = false := by simpa using h
      simp [h, List.count_cons, h2]

theorem mapGet_countRight (right : List Int) (k : Int) :
    mapGet (countRight right) k ≡ (right.count k : Int) [ZMOD 2 ^ 64] := by
  have := mapGet_foldl_count right [] k
  simpa [countRight, mapGet] using this

/-- Summation loop over any table `m`, started from any total `s`. -/
theorem foldl_score_modEq (m : IntMap) (left : List Int) (s : Int) :
    left.foldl (fun similarityScore num =>
      wrapInt (similarityScore + wrapInt (num * mapGet m num))) s
      ≡ s + (left.map (fun v => v * mapGet m v)).sum [ZMOD 2 ^ 64] := by
  induction left generalizing s with
  | nil => simp [Int.ModEq]
  | cons a rest ih =>
    rw [List.foldl_cons]
    refine (ih _).trans ?_
    simp only [List.map_cons, List.sum_cons]
    have h1 : wrapInt (s + wrapInt (a * mapGet m a)) ≡ s + a * mapGet m a [ZMOD 2 ^ 64] :=
      (wrapInt_modEq _).trans ((wrapInt_modEq _).add_left s)
    calc wrapInt (s + wrapInt (a * mapGet m a)) + (rest.map (fun v => v * mapGet m v)).sum
        ≡ (s + a * mapGet m a) + (rest.map (fun v => v * mapGet m v)).sum [ZMOD 2 ^ 64] :=
          h1.add_right _
      _ = s + (a * mapGet m a + (rest.map (fun v => v * mapGet m v)).sum) := by ring

theorem foldl_score_inIntRange (m : IntMap) (left : List Int) (s : Int) (hs : inIntRange s) :
    inIntRange (left.foldl (fun similarityScore num =>
      wrapInt (similarityScore + wrapInt (num * mapGet m num))) s) := by
  induction left generalizing s with
  | nil => simpa using hs
  | cons a rest ih =>
    rw [List.foldl_cons]
    exact ih _ (inIntRange_wrapInt _)

theorem sum_map_modEq (f g : Int → Int) (l : List Int)
    (h : ∀ v, f v ≡ g v [ZMOD 2 ^ 64]) :
    (l.map f).sum ≡ (l.map g).sum [ZMOD 2 ^ 64] := by
  induction l with
  | nil => simp [Int.ModEq]
  | cons a rest ih =>
    simp only [List.map_cons, List.sum_cons]
    exact (h a).add ih

theorem computeSimilarityScore_modEq (left right : List Int) :
    computeSimilarityScore left right ≡ similaritySum left right [ZMOD 2 ^ 64] := by
  unfold computeSimilarityScore similaritySum
  refine (foldl_score_modEq (countRight right) left 0).trans ?_
  rw [zero_add]
  apply sum_map_modEq
  intro v
  exact (mapGet_countRight right v).mul_left v

theorem computeSimilarityScore_inIntRange (left right : List Int) :
    inIntRange (computeSimilarityScore left right) :=
  foldl_score_inIntRange (countRight right) left 0 (by decide)

theorem computeSimilarityScore_eq_wrapInt (left right : List Int) :
    computeSimilarityScore left right = wrapInt (similaritySum left right) := by
  rw [← wrapInt_of_inIntRange (computeSimilarityScore_inIntRange left right)]
  exact wrapInt_congr (computeSimilarityScore_modEq left right)

theorem similaritySum_perm {left left' right right' : List Int}
    (hl : left'.Perm left) (hr : right'.Perm right) :
    similaritySum left' right' = similaritySum left right := by
  unfold similaritySum
  have hcount : (fun v : Int => v * (right'.count v : Int)) = fun v => v * (right.count v : Int) := by
    funext v
    rw [hr.count_eq]
  rw [hcount]
  exact (hl.map _).sum_eq

theorem similaritySum_nil_right (left : List Int) : similaritySum left [] = 0 := by
  unfold similaritySum
  induction left with
  | nil => rfl
  | cons a rest ih => simp

/-! ## Claims about `computeSimilarityScore` -/

/-- C1: `computeSimilarityScore left right` is the sum, over the elements `v` of `left`
with repetition, of `v` times the number of occurrences of `v` in `right`, computed in
Go `int` arithmetic: it is that sum reduced modulo `2^64` into the `int` range, and it
is the sum itself whenever the sum fits in an `int`. -/
theorem computeSimilarityScore_spec (left right : List Int) :
    computeSimilarityScore left right = wrapInt (similaritySum left right) ∧
      (inIntRange (similaritySum left right) →
        computeSimilarityScore left right = similaritySum left right) := by
  refine ⟨computeSimilarityScore_eq_wrapInt left right, fun h => ?_⟩
  rw [computeSimilarityScore_eq_wrapInt, wrapInt_of_inIntRange h]

theorem computeSimilarityScore_spec_witness :
    inIntRange (similaritySum [3, 4, 2, 1, 3, 3] [4, 3, 5, 3, 9, 3]) ∧
      computeSimilarityScore [3, 4, 2, 1, 3, 3] [4, 3, 5, 3, 9, 3]
        = similaritySum [3, 4, 2, 1, 3, 3] [4, 3, 5, 3, 9, 3] :=
  ⟨by decide, (computeSimilarityScore_spec _ _).2 (by decide)⟩

/-- C2: `computeSimilarityScore` depends only on the multisets of its arguments: it is
unchanged when `left` and `right` are replaced by permutations chosen independently. -/
theorem computeSimilarityScore_perm (left left' right right' : List Int)
    (hl : left'.Perm left) (hr : right'.Perm right) :
    computeSimilarityScore left' right' = computeSimilarityScore left right := by
  rw [computeSimilarityScore_eq_wrapInt, computeSimilarityScore_eq_wrapInt,
    similaritySum_perm hl hr]

theorem computeSimilarityScore_perm_witness :
    ([3, 1, 2] : List Int).Perm [1, 2, 3] ∧ ([2, 1, 2] : List Int).Perm [2, 2, 1] ∧
      computeSimilarityScore [3, 1, 2] [2, 1, 2] = computeSimilarityScore [1, 2, 3] [2, 2, 1] :=
  ⟨by decide, by decide, computeSimilarityScore_perm _ _ _ _ (by decide) (by decide)⟩

set_option maxRecDepth 100000 in
/-- C8: on the canonical example the similarity score is 31. -/
theorem computeSimilarityScore_example :
    computeSimilarityScore [3, 4, 2, 1, 3, 3] [4, 3, 5, 3, 9, 3] = 31 := by
  decide

/-- C9: `computeSimilarityScore` returns 0 whenever either argument is empty, in
particular when both are. -/
theorem computeSimilarityScore_nil (xs : List Int) :
    computeSimilarityScore [] xs = 0 ∧ computeSimilarityScore xs [] = 0 ∧
      computeSimilarityScore [] [] = 0 := by
  refine ⟨rfl, ?_, rfl⟩
  rw [computeSimilarityScore_eq_wrapInt, similaritySum_nil_right]
  decide

/-! ## Characters -/

theorem char_eq_of_toNat_eq {c d : Char} (h : c.toNat = d.toNat) : c = d := by
  rw [← Char.ofNat_toNat c, ← Char.ofNat_toNat d, h]

theorem mem_decimalDigits_iff (c : Char) : c ∈ decimalDigits ↔ isDecimalDigit c = true := by
  constructor
  · intro h
    simp only [decimalDigits, String.toList] at h
    simp only [List.mem_cons, List.mem_singleton, List.not_mem_nil, or_false] at h
    rcases h with h | h | h | h | h | h | h | h | h | h <;> subst h <;> decide
  · intro h
    simp only [isDecimalDigit, Bool.and_eq_true, decide_eq_true_eq] at h
    obtain ⟨h1, h2⟩ := h
    have h1' : 48 ≤ c.toNat := h1
    have h2' : c.toNat ≤ 57 := h2
    have hc : c = Char.ofNat c.toNat := (Char.ofNat_toNat c).symm
    rw [hc]
    interval_cases c.toNat <;> decide

theorem contains_decimalDigits (c : Char) : decimalDigits.contains c = isDecimalDigit c := by
  rw [Bool.eq_iff_iff, ← mem_decimalDigits_iff]
  simp [List.contains, List.elem_eq_mem]

theorem contains_sign (c : Char) : sign.contains c = decide (c = '+' ∨ c = '-') := by
  simp [sign, List.contains, List.elem_eq_mem]

theorem isDecimalDigit_not_isSpace {c : Char} (h : isDecimalDigit c = true) : isSpace c = false := by
  simp only [isDecimalDigit, Bool.and_eq_true, decide_eq_true_eq] at h
  obtain ⟨h1, h2⟩ := h
  have h1' : 48 ≤ c.toNat := h1
  have h2' : c.toNat ≤ 57 := h2
  have hc : c = Char.ofNat c.toNat := (Char.ofNat_toNat c).symm
  rw [hc]
  interval_cases c.toNat <;> decide

/-! ## `strings.Fields` -/

theorem fieldsAux_cons_nonspace (cur : List Char) (c : Char) (cs : List Char)
    (h : isSpace c = false) : fieldsAux cur (c :: cs) = fieldsAux (c :: cur) cs := by
  simp [fieldsAux, h]

theorem fieldsAux_nil_cons_space (c : Char) (cs : List Char) (h : isSpace c = true) :
    fieldsAux [] (c :: cs) = fieldsAux [] cs := by
  simp [fieldsAux, h]

theorem fieldsAux_cons_space (cur : List Char) (hcur : cur ≠ []) (c : Char) (cs : List Char)
    (h : isSpace c = true) : fieldsAux cur (c :: cs) = cur.reverse :: fieldsAux [] cs := by
  simp [fieldsAux, h, hcur]

theorem splitAux_cons_ne (sep : Char) (cur : List Char) (c : Char) (cs : List Char)
    (h : c ≠ sep) : splitAux sep cur (c :: cs) = splitAux sep (c :: cur) cs := by
  simp [splitAux, h]

theorem splitAux_cons_sep (sep : Char) (cur cs : List Char) :
    splitAux sep cur (sep :: cs) = cur.reverse :: splitAux sep [] cs := by
  simp [splitAux]

theorem fieldsAux_append_nonspace (t : List Char) (ht : ∀ c ∈ t, isSpace c = false)
    (cur rest : List Char) :
    fieldsAux cur (t ++ rest) = fieldsAux (t.reverse ++ cur) rest := by
  induction t generalizing cur with
  | nil => rfl
  | cons c cs ih =>
    have hc : isSpace c = false := ht c (List.mem_cons_self _ _)
    rw [List.cons_append, fieldsAux_cons_nonspace _ _ _ hc,
      ih (fun d hd => ht d (List.mem_cons_of_mem _ hd))]
    simp

theorem fieldsAux_nil_append_space (ws : List Char) (hws : ∀ c ∈ ws, isSpace c = true)
    (rest : List Char) :
    fieldsAux [] (ws ++ rest) = fieldsAux [] rest := by
  induction ws with
  | nil => rfl
  | cons c cs ih =>
    have hc : isSpace c = true := hws c (List.mem_cons_self _ _)
    rw [List.cons_append, fieldsAux_nil_cons_space _ _ hc]
    exact ih (fun d hd => hws d (List.mem_cons_of_mem _ hd))

theorem fieldsAux_append_space (ws : List Char) (hws : ∀ c ∈ ws, isSpace c = true)
    (hne : ws ≠ []) (cur : List Char) (hcur : cur ≠ []) (rest : List Char) :
    fieldsAux cur (ws ++ rest) = cur.reverse :: fieldsAux [] rest := by
  cases ws with
  | nil => exact absurd rfl hne
  | cons c cs =>
    have hc : isSpace c = true := hws c (List.mem_cons_self _ _)
    rw [List.cons_append, fieldsAux_cons_space _ hcur _ _ hc]
    rw [fieldsAux_nil_append_space cs (fun d hd => hws d (List.mem_cons_of_mem _ hd))]

/-- Two non-empty space-free tokens separated by a non-empty run of white space are
exactly the fields of the line. -/
theorem Fields_two_tokens (a ws b : List Char)
    (ha : ∀ c ∈ a, isSpace c = false) (hane : a ≠ [])
    (hws : ∀ c ∈ ws, isSpace c = true) (hwne : ws ≠ [])
    (hb : ∀ c ∈ b, isSpace c = false) (hbne : b ≠ []) :
    Fields (a ++ ws ++ b) = [a, b] := by
  unfold Fields
  rw [List.append_assoc, fieldsAux_append_nonspace a ha, List.append_nil,
    fieldsAux_append_space ws hws hwne _ (by simpa using hane)]
  have h := fieldsAux_append_nonspace b hb [] []
  rw [List.append_nil] at h
  rw [h]
  simp [fieldsAux, hbne]

/-- Every field is non-empty and free of white space. -/
theorem mem_fieldsAux (s cur : List Char) (hcur : ∀ c ∈ cur, isSpace c = false)
    (t : List Char) (ht : t ∈ fieldsAux cur s) :
    t ≠ [] ∧ ∀ c ∈ t, isSpace c = false := by
  induction s generalizing cur with
  | nil =>
    by_cases h : cur = []
    · simp [fieldsAux, h] at ht
    · simp only [fieldsAux, h, if_false, List.mem_singleton] at ht
      subst ht
      exact ⟨by simpa using h, fun c hc => hcur c (by simpa using hc)⟩
  | cons c cs ih =>
    by_cases hc : isSpace c = true
    · by_cases h : cur = []
      · simp only [fieldsAux, hc, if_true, h] at ht
        exact ih [] (by simp) ht
      · simp only [fieldsAux, hc, if_true, h, if_false, List.mem_cons] at ht
        rcases ht with ht | ht
        · subst ht
          exact ⟨by simpa using h, fun c hc => hcur c (by simpa using hc)⟩
        · exact ih [] (by simp) ht
    · have hc' : isSpace c = false := by simpa using hc
      simp only [fieldsAux, hc', Bool.false_eq_true, if_false] at ht
      refine ih (c :: cur) ?_ ht
      intro d hd
      rcases List.mem_cons.mp hd with h | h
      · subst h; exact hc'
      · exact hcur d h

theorem mem_Fields (s t : List Char) (ht : t ∈ Fields s) :
    t ≠ [] ∧ ∀ c ∈ t, isSpace c = false :=
  mem_fieldsAux s [] (by simp) t ht

/-! ## `strings.Split` -/

theorem splitAux_no_sep (sep : Char) (l : List Char) (hl : ∀ c ∈ l, c ≠ sep) (cur : List Char) :
    splitAux sep cur l = [cur.reverse ++ l] := by
  induction l generalizing cur with
  | nil => simp [splitAux]
  | cons c cs ih =>
    have hc : c ≠ sep := hl c (List.mem_cons_self _ _)
    simp only [splitAux, hc, if_false]
    rw [ih (fun d hd => hl d (List.mem_cons_of_mem _ hd))]
    simp

theorem splitAux_append_sep (sep : Char) (l : List Char) (hl : ∀ c ∈ l, c ≠ sep)
    (cur rest : List Char) :
    splitAux sep cur (l ++ sep :: rest) = (cur.reverse ++ l) :: splitAux sep [] rest := by
  induction l generalizing cur with
  | nil => simp [splitAux]
  | cons c cs ih =>
    have hc : c ≠ sep := hl c (List.mem_cons_self _ _)
    rw [List.cons_append, splitAux_cons_ne _ _ _ _ hc,
      ih (fun d hd => hl d (List.mem_cons_of_mem _ hd))]
    simp

/-- Splitting the text of a non-empty list of newline-free lines gives the lines back. -/
theorem Split_joinLines (lines : List (List Char)) (hne : lines ≠ [])
    (hl : ∀ l ∈ lines, ∀ c ∈ l, c ≠ '\n') : Split (joinLines lines) = lines := by
  induction lines with
  | nil => exact absurd rfl hne
  | cons l ls ih =>
    cases ls with
    | nil =>
      simp only [joinLines, Split]
      rw [splitAux_no_sep _ l (hl l (List.mem_cons_self _ _))]
      simp
    | cons l2 ls2 =>
      simp only [joinLines, Split]
      rw [splitAux_append_sep _ l (hl l (List.mem_cons_self _ _))]
      have := ih (by simp) (fun x hx => hl x (List.mem_cons_of_mem _ hx))
      simp only [Split] at this
      rw [this]
      simp

/-! ## Scanning one integer -/

theorem isDecimalDigit_iff (c : Char) :
    isDecimalDigit c = true ↔ 48 ≤ c.toNat ∧ c.toNat ≤ 57 := by
  have h0 : '0'.toNat = 48 := rfl
  have h9 : '9'.toNat = 57 := rfl
  simp [isDecimalDigit, h0, h9]

theorem SkipSpace_of_nonspace (c : Char) (cs : List Char) (hc : isSpace c = false) :
    SkipSpace (c :: cs) = .ok (c :: cs) := by
  have h1 : c ≠ '\r' := by rintro rfl; revert hc; decide
  have h2 : c ≠ '\n' := by rintro rfl; revert hc; decide
  simp [SkipSpace, h1, h2, hc]

theorem parseUintLoop_digits (ds : List Char) (hds : ∀ c ∈ ds, isDecimalDigit c = true)
    (n : Nat) (h : n * 10 ^ ds.length + digitsValue ds < 2 ^ 64) :
    parseUintLoop ds n = .ok (n * 10 ^ ds.length + digitsValue ds) := by
  induction ds generalizing n with
  | nil => simp [parseUintLoop, digitsValue]
  | cons c cs ih =>
    have hc := (isDecimalDigit_iff c).mp (hds c (List.mem_cons_self _ _))
    have h0 : '0'.toNat = 48 := rfl
    simp only [digitsValue, List.length_cons, h0] at h ⊢
    have hp : 1 ≤ 10 ^ cs.length := Nat.one_le_pow _ _ (by norm_num)
    have hstep : (n * 10 + (c.toNat - 48)) * 10 ^ cs.length + digitsValue cs
        = n * 10 ^ (cs.length + 1) + ((c.toNat - 48) * 10 ^ cs.length + digitsValue cs) := by
      ring
    have hle : n * 10 + (c.toNat - 48) ≤ (n * 10 + (c.toNat - 48)) * 10 ^ cs.length :=
      Nat.le_mul_of_pos_right _ hp
    have hlt : n * 10 + (c.toNat - 48) < 2 ^ 64 := by omega
    have hn10 : n * 10 % 2 ^ 64 = n * 10 := Nat.mod_eq_of_lt (by omega)
    have hn1 : (n * 10 + (c.toNat - 48)) % 2 ^ 64 = n * 10 + (c.toNat - 48) :=
      Nat.mod_eq_of_lt hlt
    have hcut : ¬ n ≥ (2 ^ 64 - 1) / 10 + 1 := by omega
    have hov : ¬ (n * 10 + (c.toNat - 48) < n * 10 ∨ n * 10 + (c.toNat - 48) > 2 ^ 64 - 1) := by
      omega
    rw [parseUintLoop]
    simp only [hc.1, hc.2, and_self, if_true, hcut, if_false, hn10, hn1, hov]
    rw [ih (fun d hd => hds d (List.mem_cons_of_mem _ hd)) _ (by rw [hstep]; exact h), hstep]

theorem ParseUint_digits (ds : List Char) (hne : ds ≠ [])
    (hds : ∀ c ∈ ds, isDecimalDigit c = true) (h : digitsValue ds < 2 ^ 64) :
    ParseUint ds = .ok (digitsValue ds) := by
  have := parseUintLoop_digits ds hds 0 (by simpa using h)
  simpa [ParseUint, hne] using this

theorem wrapInt_neg_wrapInt (x : Int) : wrapInt (-(wrapInt x)) = wrapInt (-x) :=
  wrapInt_congr (wrapInt_modEq x).neg

theorem sign_not_isSpace {c : Char} (h : c = '+' ∨ c = '-') : isSpace c = false := by
  rcases h with rfl | rfl <;> decide

theorem sign_not_isDecimalDigit {c : Char} (h : c = '+' ∨ c = '-') : isDecimalDigit c = false := by
  rcases h with rfl | rfl <;> decide

theorem ParseInt_literal (tok : List Char) (hlit : isIntLiteral tok = true)
    (hr : inIntRange (literalValue tok)) : ParseInt tok = .ok (literalValue tok) := by
  cases tok with
  | nil => simp [isIntLiteral, unsignedPart] at hlit
  | cons c cs =>
    simp only [isIntLiteral, unsignedPart, Bool.and_eq_true, Bool.not_eq_true',
      List.isEmpty_eq_false, List.all_eq_true] at hlit
    unfold inIntRange minInt maxInt at hr
    by_cases hm : c = '-'
    · subst hm
      simp only [or_true, if_true] at hlit
      simp only [literalValue, if_true] at hr ⊢
      have hu := ParseUint_digits cs (by simpa using hlit.1) hlit.2 (by omega)
      have hv : ¬ ((digitsValue cs : Nat) > 2 ^ 63) := by omega
      simp only [ParseInt, or_true, if_true, hu, decide_True, not_true_eq_false, false_and,
        if_false, true_and, hv]
      rw [wrapInt_neg_wrapInt, wrapInt_of_inIntRange]
      unfold inIntRange minInt maxInt
      omega
    · by_cases hp : c = '+'
      · subst hp
        simp only [true_or, if_true] at hlit
        simp only [literalValue, hm, if_false, if_true] at hr ⊢
        have hu := ParseUint_digits cs (by simpa using hlit.1) hlit.2 (by omega)
        have hv : ¬ ((digitsValue cs : Nat) ≥ 2 ^ 63) := by omega
        simp only [ParseInt, true_or, if_true, hu, hm, decide_False, not_false_eq_true,
          true_and, hv, if_false, false_and, Bool.false_eq_true]
        rw [wrapInt_of_inIntRange]
        unfold inIntRange minInt maxInt
        omega
      · simp only [hm, hp, or_self, if_false] at hlit
        simp only [literalValue, hm, hp, if_false] at hr ⊢
        have hu := ParseUint_digits (c :: cs) (by simp) hlit.2 (by omega)
        have hv : ¬ ((digitsValue (c :: cs) : Nat) ≥ 2 ^ 63) := by omega
        simp only [ParseInt, hm, hp, or_self, if_false, hu, decide_False, not_false_eq_true,
          true_and, hv, false_and, Bool.false_eq_true]
        rw [wrapInt_of_inIntRange]
        unfold inIntRange minInt maxInt
        omega

theorem takeWhile_digits (ds : List Char) (hds : ∀ c ∈ ds, isDecimalDigit c = true) :
    ds.takeWhile decimalDigits.contains = ds := by
  rw [List.takeWhile_eq_self_iff]
  intro c hc
  rw [contains_decimalDigits]
  exact hds c hc

/-- On a space-free, non-empty token the two `SkipSpace` calls of `Sscanf` skip nothing. -/
theorem Sscanf_cons_nonspace (c : Char) (cs : List Char) (hc : isSpace c = false) :
    Sscanf (c :: cs) =
      (match (if sign.contains c then cs else c :: cs) with
        | [] => .error .end_of_input
        | d :: ds =>
          if decimalDigits.contains d then
            match ParseInt ((if sign.contains c then [c] else []) ++
                d :: ds.takeWhile decimalDigits.contains) with
            | .error e => .error (.number e)
            | .ok i => .ok i
          else .error .expected_integer) := by
  simp only [Sscanf, scanInt, SkipSpace_of_nonspace c cs hc]

theorem Sscanf_literal (tok : List Char) (hlit : isIntLiteral tok = true)
    (hr : inIntRange (literalValue tok)) : Sscanf tok = .ok (literalValue tok) := by
  have hP := ParseInt_literal tok hlit hr
  cases tok with
  | nil => simp [isIntLiteral, unsignedPart] at hlit
  | cons c cs =>
    simp only [isIntLiteral, unsignedPart, Bool.and_eq_true, Bool.not_eq_true',
      List.isEmpty_eq_false, List.all_eq_true] at hlit
    by_cases hs : c = '+' ∨ c = '-'
    · simp only [hs, if_true] at hlit
      rw [Sscanf_cons_nonspace c cs (sign_not_isSpace hs)]
      cases cs with
      | nil => simp at hlit
      | cons d ds =>
        have hd : isDecimalDigit d = true := hlit.2 d (List.mem_cons_self _ _)
        have hds : ∀ x ∈ ds, isDecimalDigit x = true :=
          fun x hx => hlit.2 x (List.mem_cons_of_mem _ hx)
        simp only [contains_sign, hs, decide_True, if_true, contains_decimalDigits d, hd]
        rw [takeWhile_digits ds hds]
        simp only [List.singleton_append, hP]
    · simp only [hs, if_false] at hlit
      have hd : isDecimalDigit c = true := hlit.2 c (List.mem_cons_self _ _)
      have hds : ∀ x ∈ cs, isDecimalDigit x = true :=
        fun x hx => hlit.2 x (List.mem_cons_of_mem _ hx)
      rw [Sscanf_cons_nonspace c cs (isDecimalDigit_not_isSpace hd)]
      simp only [contains_sign, hs, decide_False, Bool.false_eq_true, if_false,
        contains_decimalDigits c, hd, if_true]
      rw [takeWhile_digits cs hds]
      simp only [List.nil_append, hP]

/-- A space-free token that does not begin with an integer literal makes the scan fail. -/
theorem Sscanf_error_of_not_startsWithIntLiteral (tok : List Char) (hne : tok ≠ [])
    (hns : ∀ c ∈ tok, isSpace c = false) (h : startsWithIntLiteral tok = false) :
    ∃ e, Sscanf tok = .error e := by
  cases tok with
  | nil => exact absurd rfl hne
  | cons c cs =>
    rw [Sscanf_cons_nonspace c cs (hns c (List.mem_cons_self _ _))]
    simp only [startsWithIntLiteral, unsignedPart] at h
    by_cases hs : c = '+' ∨ c = '-'
    · simp only [hs, if_true] at h
      simp only [contains_sign, hs, decide_True, if_true]
      cases cs with
      | nil => exact ⟨_, rfl⟩
      | cons d ds =>
        simp only at h
        simp only [contains_decimalDigits d, h, Bool.false_eq_true, if_false]
        exact ⟨_, rfl⟩
    · simp only [hs, if_false] at h
      simp only [contains_sign, hs, decide_False, Bool.false_eq_true, if_false,
        contains_decimalDigits c, h]
      exact ⟨_, rfl⟩

/-! ## Integer literals out of range, and tokens that only begin with a literal -/

theorem parseUintLoop_overflow (ds : List Char) (hds : ∀ c ∈ ds, isDecimalDigit c = true)
    (n : Nat) (hn : n < 2 ^ 64) (h : 2 ^ 64 ≤ n * 10 ^ ds.length + digitsValue ds) :
    parseUintLoop ds n = .error .out_of_range := by
  induction ds generalizing n with
  | nil =>
    simp only [List.length_nil, pow_zero, digitsValue] at h
    omega
  | cons c cs ih =>
    have hc := (isDecimalDigit_iff c).mp (hds c (List.mem_cons_self _ _))
    have h0 : '0'.toNat = 48 := rfl
    simp only [digitsValue, List.length_cons, h0] at h
    have hstep : (n * 10 + (c.toNat - 48)) * 10 ^ cs.length + digitsValue cs
        = n * 10 ^ (cs.length + 1) + ((c.toNat - 48) * 10 ^ cs.length + digitsValue cs) := by
      ring
    rw [parseUintLoop]
    simp only [hc.1, hc.2, and_self, if_true]
    by_cases hcut : n ≥ (2 ^ 64 - 1) / 10 + 1
    · simp only [hcut, if_true]
    · have hn10 : n * 10 % 2 ^ 64 = n * 10 := Nat.mod_eq_of_lt (by omega)
      simp only [hcut, if_false, hn10]
      by_cases hov : n * 10 + (c.toNat - 48) < 2 ^ 64
      · have hn1 : (n * 10 + (c.toNat - 48)) % 2 ^ 64 = n * 10 + (c.toNat - 48) :=
          Nat.mod_eq_of_lt hov
        have hno : ¬ (n * 10 + (c.toNat - 48) < n * 10 ∨ n * 10 + (c.toNat - 48) > 2 ^ 64 - 1) := by
          omega
        simp only [hn1, hno, if_false]
        exact ih (fun d hd => hds d (List.mem_cons_of_mem _ hd)) _ hov (by rw [hstep]; exact h)
      · have hwrap : (n * 10 + (c.toNat - 48)) % 2 ^ 64 < n * 10 := by omega
        simp only [hwrap, true_or, if_true]

theorem ParseUint_overflow (ds : List Char) (hne : ds ≠ [])
    (hds : ∀ c ∈ ds, isDecimalDigit c = true) (h : 2 ^ 64 ≤ digitsValue ds) :
    ParseUint ds = .error .out_of_range := by
  have := parseUintLoop_overflow ds hds 0 (by norm_num) (by simpa using h)
  simpa [ParseUint, hne] using this

/-- Either `ParseUint` reads the value of a digit string, which is then below `2^64`, or
the value is `2^64` or more and it reports a range error. -/
theorem ParseUint_cases (ds : List Char) (hne : ds ≠ [])
    (hds : ∀ c ∈ ds, isDecimalDigit c = true) :
    (digitsValue ds < 2 ^ 64 ∧ ParseUint ds = .ok (digitsValue ds)) ∨
      (2 ^ 64 ≤ digitsValue ds ∧ ParseUint ds = .error .out_of_range) := by
  by_cases h : digitsValue ds < 2 ^ 64
  · exact Or.inl ⟨h, ParseUint_digits ds hne hds h⟩
  · exact Or.inr ⟨by omega, ParseUint_overflow ds hne hds (by omega)⟩

theorem ParseInt_literal_out_of_range (tok : List Char) (hlit : isIntLiteral tok = true)
    (hr : ¬ inIntRange (literalValue tok)) : ParseInt tok = .error .out_of_range := by
  cases tok with
  | nil => simp [isIntLiteral, unsignedPart] at hlit
  | cons c cs =>
    simp only [isIntLiteral, unsignedPart, Bool.and_eq_true, Bool.not_eq_true',
      List.isEmpty_eq_false, List.all_eq_true] at hlit
    unfold inIntRange minInt maxInt at hr
    by_cases hm : c = '-'
    · subst hm
      simp only [or_true, if_true] at hlit
      simp only [literalValue, if_true] at hr
      rcases ParseUint_cases cs (by simpa using hlit.1) hlit.2 with ⟨hlt, hu⟩ | ⟨_, hu⟩
      · have hv : (digitsValue cs : Nat) > 2 ^ 63 := by omega
        simp only [ParseInt, or_true, if_true, hu, decide_True, not_true_eq_false, false_and,
          if_false, true_and, hv]
      · simp only [ParseInt, or_true, if_true, hu]
    · by_cases hp : c = '+'
      · subst hp
        simp only [true_or, if_true] at hlit
        simp only [literalValue, hm, if_false, if_true] at hr
        rcases ParseUint_cases cs (by simpa using hlit.1) hlit.2 with ⟨hlt, hu⟩ | ⟨_, hu⟩
        · have hv : (digitsValue cs : Nat) ≥ 2 ^ 63 := by omega
          simp only [ParseInt, true_or, if_true, hu, hm, decide_False, not_false_eq_true,
            true_and, hv, Bool.false_eq_true]
        · simp only [ParseInt, true_or, if_true, hu]
      · simp only [hm, hp, or_self, if_false] at hlit
        simp only [literalValue, hm, hp, if_false] at hr
        rcases ParseUint_cases (c :: cs) (by simp) hlit.2 with ⟨hlt, hu⟩ | ⟨_, hu⟩
        · have hv : (digitsValue (c :: cs) : Nat) ≥ 2 ^ 63 := by omega
          simp only [ParseInt, hm, hp, or_self, if_false, hu, decide_False, not_false_eq_true,
            true_and, hv, Bool.false_eq_true, if_true]
        · simp only [ParseInt, hm, hp, or_self, if_false, hu]

theorem takeWhile_contains_decimalDigits (ds : List Char) :
    ds.takeWhile decimalDigits.contains = ds.takeWhile isDecimalDigit := by
  have : (decimalDigits.contains : Char → Bool) = isDecimalDigit :=
    funext contains_decimalDigits
  rw [this]

/-- On a space-free token that begins with an integer literal, `Sscanf` converts the
leading literal with `ParseInt` and ignores the rest of the token. -/
theorem Sscanf_eq_ParseInt_leadingLiteral (tok : List Char)
    (hns : ∀ c ∈ tok, isSpace c = false) (hstart : startsWithIntLiteral tok = true) :
    isIntLiteral (leadingLiteral tok) = true ∧
      (∀ i, ParseInt (leadingLiteral tok) = .ok i → Sscanf tok = .ok i) ∧
      (∀ e, ParseInt (leadingLiteral tok) = .error e → Sscanf tok = .error (.number e)) := by
  cases tok with
  | nil => simp [startsWithIntLiteral, unsignedPart] at hstart
  | cons c cs =>
    rw [Sscanf_cons_nonspace c cs (hns c (List.mem_cons_self _ _))]
    simp only [startsWithIntLiteral, unsignedPart] at hstart
    by_cases hs : c = '+' ∨ c = '-'
    · simp only [hs, if_true] at hstart
      cases cs with
      | nil => simp at hstart
      | cons d ds =>
        simp only at hstart
        have hlead : leadingLiteral (c :: d :: ds) = c :: d :: ds.takeWhile isDecimalDigit := by
          simp [leadingLiteral, hs, List.takeWhile_cons, hstart]
        rw [hlead]
        constructor
        · simp only [isIntLiteral, unsignedPart, hs, if_true, Bool.and_eq_true,
            Bool.not_eq_true', List.isEmpty_eq_false, List.all_eq_true]
          refine ⟨by simp, ?_⟩
          intro x hx
          rcases List.mem_cons.mp hx with rfl | hx'
          · exact hstart
          · exact (List.mem_takeWhile_imp hx')
        · simp only [contains_sign, hs, decide_True, if_true, contains_decimalDigits d, hstart,
            takeWhile_contains_decimalDigits, List.singleton_append]
          exact ⟨fun i hi => by rw [hi], fun e he => by rw [he]⟩
    · simp only [hs, if_false] at hstart
      have hlead : leadingLiteral (c :: cs) = c :: cs.takeWhile isDecimalDigit := by
        simp [leadingLiteral, hs, List.takeWhile_cons, hstart]
      rw [hlead]
      constructor
      · simp only [isIntLiteral, unsignedPart, hs, if_false, Bool.and_eq_true,
          Bool.not_eq_true', List.isEmpty_eq_false, List.all_eq_true]
        refine ⟨by simp, ?_⟩
        intro x hx
        rcases List.mem_cons.mp hx with rfl | hx'
        · exact hstart
        · exact (List.mem_takeWhile_imp hx')
      · simp only [contains_sign, hs, decide_False, Bool.false_eq_true, if_false,
          contains_decimalDigits c, hstart, if_true, takeWhile_contains_decimalDigits,
          List.nil_append]
        exact ⟨fun i hi => by rw [hi], fun e he => by rw [he]⟩

/-- A token that begins with an integer literal in range is read as the value of that
literal, whatever follows the digits. -/
theorem Sscanf_of_hasLeadingInt (tok : List Char) (hns : ∀ c ∈ tok, isSpace c = false)
    (h : hasLeadingInt tok = true) : Sscanf tok = .ok (literalValue (leadingLiteral tok)) := by
  by_cases hstart : startsWithIntLiteral tok = true
  · obtain ⟨_, hS, _⟩ := Sscanf_eq_ParseInt_leadingLiteral tok hns hstart
    simp only [hasLeadingInt, isIntToken, Bool.and_eq_true, decide_eq_true_eq] at h
    exact hS _ (ParseInt_literal _ h.1 h.2)
  · exfalso
    simp only [hasLeadingInt, isIntToken, Bool.and_eq_true, decide_eq_true_eq] at h
    have hlit := h.1
    cases tok with
    | nil => simp [leadingLiteral, isIntLiteral, unsignedPart] at hlit
    | cons c cs =>
      simp only [startsWithIntLiteral, unsignedPart] at hstart
      by_cases hs : c = '+' ∨ c = '-'
      · simp only [hs, if_true] at hstart
        cases cs with
        | nil => simp [leadingLiteral, hs, isIntLiteral, unsignedPart] at hlit
        | cons d ds =>
          simp only [Bool.not_eq_true] at hstart
          simp [leadingLiteral, hs, isIntLiteral, unsignedPart, List.takeWhile_cons, hstart] at hlit
      · simp only [hs, if_false, Bool.not_eq_true] at hstart
        simp [leadingLiteral, hs, isIntLiteral, unsignedPart, List.takeWhile_cons, hstart] at hlit

/-- A space-free token that does not begin with an integer literal in range makes the
scan fail. -/
theorem Sscanf_error_of_not_hasLeadingInt (tok : List Char) (hne : tok ≠ [])
    (hns : ∀ c ∈ tok, isSpace c = false) (h : hasLeadingInt tok = false) :
    ∃ e, Sscanf tok = .error e := by
  by_cases hstart : startsWithIntLiteral tok = true
  · obtain ⟨hlit, _, hS⟩ := Sscanf_eq_ParseInt_leadingLiteral tok hns hstart
    have hr : ¬ inIntRange (literalValue (leadingLiteral tok)) := by
      intro hin
      simp [hasLeadingInt, isIntToken, hlit, hin] at h
    exact ⟨_, hS _ (ParseInt_literal_out_of_range _ hlit hr)⟩
  · exact Sscanf_error_of_not_startsWithIntLiteral tok hne hns (by simpa using hstart)

/-! ## Decimal numerals -/

theorem digitChar_toNat (m : Nat) (h : m < 10) : (Nat.digitChar m).toNat = 48 + m := by
  interval_cases m <;> rfl

theorem isDecimalDigit_digitChar (m : Nat) (h : m < 10) :
    isDecimalDigit (Nat.digitChar m) = true := by
  interval_cases m <;> rfl

/-- The digit loop of `Nat.toDigits`, with enough fuel: it puts the decimal digits of `n`
in front of `ds`. -/
theorem toDigitsCore_spec (fuel n : Nat) (ds : List Char) (hfuel : n < fuel)
    (hds : ∀ c ∈ ds, isDecimalDigit c = true) :
    (∀ c ∈ Nat.toDigitsCore 10 fuel n ds, isDecimalDigit c = true) ∧
      Nat.toDigitsCore 10 fuel n ds ≠ [] ∧
      digitsValue (Nat.toDigitsCore 10 fuel n ds) = n * 10 ^ ds.length + digitsValue ds ∧
      (Nat.toDigitsCore 10 fuel n ds).length ≥ ds.length + 1 := by
  induction fuel generalizing n ds with
  | zero => omega
  | succ fuel ih =>
    have hmod : n % 10 < 10 := Nat.mod_lt _ (by norm_num)
    have hdc := isDecimalDigit_digitChar (n % 10) hmod
    have hdn := digitChar_toNat (n % 10) hmod
    have h0 : '0'.toNat = 48 := rfl
    have hval : digitsValue (Nat.digitChar (n % 10) :: ds)
        = (n % 10) * 10 ^ ds.length + digitsValue ds := by
      simp only [digitsValue, hdn, h0]
      congr 2
      omega
    have hall : ∀ c ∈ Nat.digitChar (n % 10) :: ds, isDecimalDigit c = true := by
      intro c hc
      rcases List.mem_cons.mp hc with rfl | hc'
      · exact hdc
      · exact hds c hc'
    by_cases hq : n / 10 = 0
    · have hstep : Nat.toDigitsCore 10 (fuel + 1) n ds = Nat.digitChar (n % 10) :: ds := by
        simp [Nat.toDigitsCore, hq]
      have hn : n % 10 = n := Nat.mod_eq_of_lt (by omega)
      rw [hstep]
      refine ⟨hall, by simp, ?_, by simp⟩
      rw [hval, hn]
    · have hstep : Nat.toDigitsCore 10 (fuel + 1) n ds
          = Nat.toDigitsCore 10 fuel (n / 10) (Nat.digitChar (n % 10) :: ds) := by
        simp [Nat.toDigitsCore, hq]
      have hlt : n / 10 < fuel := by omega
      obtain ⟨h1, h2, h3, h4⟩ := ih (n / 10) _ hlt hall
      rw [hstep]
      refine ⟨h1, h2, ?_, ?_⟩
      · rw [h3, hval, List.length_cons, pow_succ]
        have hdiv : n = 10 * (n / 10) + n % 10 := (Nat.div_add_mod n 10).symm
        generalize 10 ^ ds.length = p at *
        generalize digitsValue ds = v at *
        generalize n / 10 = q at *
        generalize n % 10 = r at *
        subst hdiv
        ring
      · simp only [List.length_cons] at h4
        omega

theorem toDigits_spec (n : Nat) :
    (∀ c ∈ Nat.toDigits 10 n, isDecimalDigit c = true) ∧ Nat.toDigits 10 n ≠ [] ∧
      digitsValue (Nat.toDigits 10 n) = n := by
  obtain ⟨h1, h2, h3, _⟩ := toDigitsCore_spec (n + 1) n [] (by omega) (by simp)
  refine ⟨h1, h2, ?_⟩
  rw [Nat.toDigits, h3]
  simp [digitsValue]

/-- The text `formatInt` produces is a base-10 integer literal and it denotes the
number formatted. -/
theorem formatInt_spec (i : Int) :
    isIntLiteral (formatInt i) = true ∧ literalValue (formatInt i) = i := by
  by_cases hneg : i < 0
  · obtain ⟨h1, h2, h3⟩ := toDigits_spec i.natAbs
    have hf : formatInt i = '-' :: Nat.toDigits 10 i.natAbs := by simp [formatInt, hneg]
    rw [hf]
    constructor
    · simp only [isIntLiteral, unsignedPart, or_true, if_true, Bool.and_eq_true,
        Bool.not_eq_true', List.isEmpty_eq_false, List.all_eq_true]
      exact ⟨by simpa using h2, h1⟩
    · simp only [literalValue, if_true, h3]
      omega
  · obtain ⟨h1, h2, h3⟩ := toDigits_spec i.toNat
    have hf : formatInt i = Nat.toDigits 10 i.toNat := by simp [formatInt, hneg]
    rw [hf]
    cases hd : Nat.toDigits 10 i.toNat with
    | nil => exact absurd hd h2
    | cons c cs =>
      rw [hd] at h1 h2 h3
      have hc : isDecimalDigit c = true := h1 c (List.mem_cons_self _ _)
      have hp : c ≠ '+' := by rintro rfl; revert hc; decide
      have hm : c ≠ '-' := by rintro rfl; revert hc; decide
      constructor
      · simp only [isIntLiteral, unsignedPart, hp, hm, or_self, if_false, Bool.and_eq_true,
          Bool.not_eq_true', List.isEmpty_eq_false, List.all_eq_true]
        exact ⟨by simp, h1⟩
      · simp only [literalValue, hp, hm, if_false, h3]
        omega

/-! ## The loop of `parseInput` -/

theorem parseLines_cons_of_fields (line : List Char) (lines : List (List Char))
    (left right : List Int) (a b : List Char) (hf : Fields line = [a, b]) :
    parseLines (line :: lines) left right =
      match Sscanf a with
      | .error e => ⟨[], [], some (.scan e)⟩
      | .ok l =>
        match Sscanf b with
        | .error e => ⟨[], [], some (.scan e)⟩
        | .ok r => parseLines lines (left ++ [l]) (right ++ [r]) := by
  rw [parseLines]
  simp only [hf, List.length_cons, List.length_nil, ne_eq, not_true_eq_false, if_false]
  rfl

theorem parseLines_cons_of_length_ne (line : List Char) (lines : List (List Char))
    (left right : List Int) (hf : (Fields line).length ≠ 2) :
    parseLines (line :: lines) left right = ⟨[], [], some (invalidLineError line)⟩ := by
  rw [parseLines]
  simp only [hf, ne_eq, not_false_eq_true, if_true]

theorem fields_eq_pair_of_length {line : List Char} (h : (Fields line).length = 2) :
    ∃ a b, Fields line = [a, b] := by
  match hf : Fields line, h with
  | [a, b], _ => exact ⟨a, b, rfl⟩

/-- Either the loop succeeds, or it returns an error and two `nil` slices. -/
theorem parseLines_err (lines : List (List Char)) (left right : List Int) :
    (parseLines lines left right).err ≠ none →
      (parseLines lines left right).left = [] ∧ (parseLines lines left right).right = [] := by
  induction lines generalizing left right with
  | nil => simp [parseLines]
  | cons line lines ih =>
    by_cases hlen : (Fields line).length = 2
    · obtain ⟨a, b, hf⟩ := fields_eq_pair_of_length hlen
      rw [parseLines_cons_of_fields line lines left right a b hf]
      cases Sscanf a with
      | error e => simp
      | ok l =>
        cases Sscanf b with
        | error e => simp
        | ok r => exact ih _ _
    · rw [parseLines_cons_of_length_ne line lines left right hlen]
      simp

/-- On success the loop has appended one value per line to each slice. -/
theorem parseLines_length (lines : List (List Char)) (left right : List Int)
    (h : (parseLines lines left right).err = none) :
    (parseLines lines left right).left.length = left.length + lines.length ∧
      (parseLines lines left right).right.length = right.length + lines.length := by
  induction lines generalizing left right with
  | nil => simp [parseLines]
  | cons line lines ih =>
    by_cases hlen : (Fields line).length = 2
    · obtain ⟨a, b, hf⟩ := fields_eq_pair_of_length hlen
      rw [parseLines_cons_of_fields line lines left right a b hf] at h ⊢
      cases hA : Sscanf a with
      | error e => simp [hA] at h
      | ok l =>
        cases hB : Sscanf b with
        | error e => simp [hA, hB] at h
        | ok r =>
          simp only [hA, hB] at h ⊢
          obtain ⟨h1, h2⟩ := ih _ _ h
          rw [List.length_append, List.length_singleton] at h1 h2
          rw [h1, h2, List.length_cons]
          omega
    · rw [parseLines_cons_of_length_ne line lines left right hlen] at h
      simp at h

/-- A well-formed line, spelled out. -/
theorem wellFormedLine_iff (line : List Char) :
    wellFormedLine line = true ↔
      ∃ a b, Fields line = [a, b] ∧ isIntToken a = true ∧ isIntToken b = true := by
  unfold wellFormedLine
  constructor
  · intro h
    split at h
    · rename_i a b hf
      exact ⟨a, b, hf, by simpa using h⟩
    · simp at h
  · rintro ⟨a, b, hf, ha, hb⟩
    simp [hf, ha, hb]

theorem Sscanf_isIntToken (tok : List Char) (h : isIntToken tok = true) :
    Sscanf tok = .ok (literalValue tok) := by
  simp only [isIntToken, Bool.and_eq_true, decide_eq_true_eq] at h
  exact Sscanf_literal tok h.1 h.2

/-- The loop on well-formed lines: it succeeds and appends the values of the first
tokens to `left` and of the second tokens to `right`, in line order. -/
theorem parseLines_wellFormed (lines : List (List Char)) (left right : List Int)
    (h : ∀ l ∈ lines, wellFormedLine l = true) :
    parseLines lines left right =
      ⟨left ++ lines.map (fun l => literalValue ((Fields l).getD 0 [])),
        right ++ lines.map (fun l => literalValue ((Fields l).getD 1 [])), none⟩ := by
  induction lines generalizing left right with
  | nil => simp [parseLines]
  | cons line lines ih =>
    obtain ⟨a, b, hf, ha, hb⟩ := (wellFormedLine_iff line).mp (h line (List.mem_cons_self _ _))
    rw [parseLines_cons_of_fields line lines left right a b hf]
    simp only [Sscanf_isIntToken a ha, Sscanf_isIntToken b hb]
    rw [ih _ _ (fun l hl => h l (List.mem_cons_of_mem _ hl))]
    simp [hf]

/-- A line with a token count other than two makes the loop fail, whatever precedes or
follows it. -/
theorem parseLines_bad_line (pre : List (List Char)) (bad : List Char)
    (post : List (List Char)) (hbad : (Fields bad).length ≠ 2) (left right : List Int) :
    (parseLines (pre ++ bad :: post) left right).err ≠ none := by
  induction pre generalizing left right with
  | nil =>
    rw [List.nil_append, parseLines_cons_of_length_ne bad post left right hbad]
    simp
  | cons line pre ih =>
    rw [List.cons_append]
    by_cases hlen : (Fields line).length = 2
    · obtain ⟨a, b, hf⟩ := fields_eq_pair_of_length hlen
      rw [parseLines_cons_of_fields line _ left right a b hf]
      cases Sscanf a with
      | error e => simp
      | ok l =>
        cases Sscanf b with
        | error e => simp
        | ok r => exact ih _ _
    · rw [parseLines_cons_of_length_ne line _ left right hlen]
      simp

theorem parseLines_bad_line_after_wellFormed (pre : List (List Char)) (bad : List Char)
    (post : List (List Char)) (hbad : (Fields bad).length ≠ 2)
    (hpre : ∀ l ∈ pre, wellFormedLine l = true) (left right : List Int) :
    parseLines (pre ++ bad :: post) left right = ⟨[], [], some (invalidLineError bad)⟩ := by
  induction pre generalizing left right with
  | nil => rw [List.nil_append, parseLines_cons_of_length_ne bad post left right hbad]
  | cons line pre ih =>
    obtain ⟨a, b, hf, ha, hb⟩ := (wellFormedLine_iff line).mp (hpre line (List.mem_cons_self _ _))
    rw [List.cons_append, parseLines_cons_of_fields line _ left right a b hf]
    simp only [Sscanf_isIntToken a ha, Sscanf_isIntToken b hb]
    exact ih (fun l hl => hpre l (List.mem_cons_of_mem _ hl)) _ _

/-- A token that does not begin with an integer literal in range makes the loop fail,
provided every line has two tokens. -/
theorem parseLines_bad_token (lines : List (List Char))
    (hlen : ∀ l ∈ lines, (Fields l).length = 2)
    (hbad : ∃ l ∈ lines, ∃ tok ∈ Fields l, hasLeadingInt tok = false)
    (left right : List Int) :
    (parseLines lines left right).err ≠ none := by
  induction lines generalizing left right with
  | nil => simp at hbad
  | cons line lines ih =>
    obtain ⟨a, b, hf⟩ := fields_eq_pair_of_length (hlen line (List.mem_cons_self _ _))
    rw [parseLines_cons_of_fields line lines left right a b hf]
    obtain ⟨l, hl, tok, htok, hstart⟩ := hbad
    rcases List.mem_cons.mp hl with rfl | hl'
    · have hprop := mem_Fields l tok htok
      obtain ⟨e, he⟩ := Sscanf_error_of_not_hasLeadingInt tok hprop.1 hprop.2 hstart
      rw [hf] at htok
      simp only [List.mem_cons, List.mem_singleton, List.not_mem_nil, or_false] at htok
      rcases htok with rfl | rfl
      · simp [he]
      · cases Sscanf a with
        | error e' => simp
        | ok v => simp [he]
    · cases Sscanf a with
      | error e => simp
      | ok v =>
        cases Sscanf b with
        | error e => simp
        | ok w =>
          exact ih (fun x hx => hlen x (List.mem_cons_of_mem _ hx)) ⟨l, hl', tok, htok, hstart⟩ _ _

/-- When every line has two tokens and every token begins with an integer literal in
range, the loop succeeds. -/
theorem parseLines_hasLeadingInt (lines : List (List Char))
    (hlen : ∀ l ∈ lines, (Fields l).length = 2)
    (hall : ∀ l ∈ lines, ∀ tok ∈ Fields l, hasLeadingInt tok = true)
    (left right : List Int) :
    (parseLines lines left right).err = none := by
  induction lines generalizing left right with
  | nil => simp [parseLines]
  | cons line lines ih =>
    obtain ⟨a, b, hf⟩ := fields_eq_pair_of_length (hlen line (List.mem_cons_self _ _))
    have hline := hall line (List.mem_cons_self _ _)
    have ha : a ∈ Fields line := by rw [hf]; simp
    have hb : b ∈ Fields line := by rw [hf]; simp
    rw [parseLines_cons_of_fields line lines left right a b hf,
      Sscanf_of_hasLeadingInt a (mem_Fields line a ha).2 (hline a ha),
      Sscanf_of_hasLeadingInt b (mem_Fields line b hb).2 (hline b hb)]
    exact ih (fun l hl => hlen l (List.mem_cons_of_mem _ hl))
      (fun l hl => hall l (List.mem_cons_of_mem _ hl)) _ _

/-! ## Rows of the two-column input -/

theorem isIntToken_chars (tok : List Char) (h : isIntToken tok = true) :
    tok ≠ [] ∧ ∀ c ∈ tok, isSpace c = false := by
  simp only [isIntToken, Bool.and_eq_true, decide_eq_true_eq] at h
  have hlit := h.1
  cases tok with
  | nil => simp [isIntLiteral, unsignedPart] at hlit
  | cons c cs =>
    refine ⟨by simp, ?_⟩
    simp only [isIntLiteral, unsignedPart, Bool.and_eq_true, Bool.not_eq_true',
      List.isEmpty_eq_false, List.all_eq_true] at hlit
    intro d hd
    by_cases hs : c = '+' ∨ c = '-'
    · simp only [hs, if_true] at hlit
      rcases List.mem_cons.mp hd with rfl | hd'
      · exact sign_not_isSpace hs
      · exact isDecimalDigit_not_isSpace (hlit.2 d hd')
    · simp only [hs, if_false] at hlit
      exact isDecimalDigit_not_isSpace (hlit.2 d hd)

theorem ne_newline_of_not_isSpace {c : Char} (h : isSpace c = false) : c ≠ '\n' := by
  rintro rfl
  revert h
  decide

theorem Row.valid_iff (r : Row) :
    r.valid = true ↔ isIntToken r.first = true ∧ isIntToken r.second = true ∧ r.gap ≠ [] ∧
      ∀ c ∈ r.gap, isSpace c = true ∧ c ≠ '\n' := by
  simp [Row.valid, and_assoc]

theorem Row.fields_text (r : Row) (h : r.valid = true) : Fields r.text = [r.first, r.second] := by
  obtain ⟨h1, h2, h3, h4⟩ := (Row.valid_iff r).mp h
  exact Fields_two_tokens r.first r.gap r.second (isIntToken_chars _ h1).2 (isIntToken_chars _ h1).1
    (fun c hc => (h4 c hc).1) h3 (isIntToken_chars _ h2).2 (isIntToken_chars _ h2).1

theorem Row.wellFormedLine_text (r : Row) (h : r.valid = true) :
    wellFormedLine r.text = true := by
  obtain ⟨h1, h2, _, _⟩ := (Row.valid_iff r).mp h
  exact (wellFormedLine_iff _).mpr ⟨r.first, r.second, Row.fields_text r h, h1, h2⟩

theorem Row.text_no_newline (r : Row) (h : r.valid = true) : ∀ c ∈ r.text, c ≠ '\n' := by
  obtain ⟨h1, h2, _, h4⟩ := (Row.valid_iff r).mp h
  intro c hc
  simp only [Row.text, List.mem_append] at hc
  rcases hc with (hc | hc) | hc
  · exact ne_newline_of_not_isSpace ((isIntToken_chars _ h1).2 c hc)
  · exact (h4 c hc).2
  · exact ne_newline_of_not_isSpace ((isIntToken_chars _ h2).2 c hc)

theorem TrimSpace_of_all_space (data : List Char) (h : ∀ c ∈ data, isSpace c = true) :
    TrimSpace data = [] := by
  unfold TrimSpace
  rw [List.dropWhile_eq_nil_iff.mpr h]
  rfl

/-! ## Claims about `parseInput` -/

/-- C3: whenever `parseInput` succeeds, the two returned lists have the same length. -/
theorem parseInput_length_eq (data : List Char) (h : (parseInput data).err = none) :
    (parseInput data).left.length = (parseInput data).right.length := by
  unfold parseInput at h ⊢
  obtain ⟨h1, h2⟩ := parseLines_length _ [] [] h
  rw [h1, h2]

set_option maxRecDepth 100000 in
theorem parseInput_length_eq_witness :
    (parseInput "3   4\n4   3\n2   5\n".toList).err = none ∧
      (parseInput "3   4\n4   3\n2   5\n".toList).left.length
        = (parseInput "3   4\n4   3\n2   5\n".toList).right.length :=
  ⟨by decide, parseInput_length_eq _ (by decide)⟩

/-- C4: when the trimmed input consists of `n ≥ 1` newline-separated lines, each made
of two base-10 integer tokens within `int` range separated by a run of white space,
`parseInput` succeeds and returns two lists of length `n` holding, in line order, the
values of the first tokens and the values of the second tokens. -/
theorem parseInput_rows (data : List Char) (rows : List Row) (hne : rows ≠ [])
    (hvalid : ∀ r ∈ rows, r.valid = true)
    (htext : TrimSpace data = joinLines (rows.map Row.text)) :
    parseInput data =
        ⟨rows.map (fun r => literalValue r.first), rows.map (fun r => literalValue r.second),
          none⟩ ∧
      (parseInput data).left.length = rows.length ∧
      (parseInput data).right.length = rows.length := by
  have hsplit : Split (TrimSpace data) = rows.map Row.text := by
    rw [htext]
    apply Split_joinLines
    · simpa using hne
    · intro l hl
      obtain ⟨r, hr, rfl⟩ := List.mem_map.mp hl
      exact Row.text_no_newline r (hvalid r hr)
  have hwf : ∀ l ∈ rows.map Row.text, wellFormedLine l = true := by
    intro l hl
    obtain ⟨r, hr, rfl⟩ := List.mem_map.mp hl
    exact Row.wellFormedLine_text r (hvalid r hr)
  have hmain : parseInput data =
      ⟨rows.map (fun r => literalValue r.first), rows.map (fun r => literalValue r.second),
        none⟩ := by
    unfold parseInput
    simp only [hsplit]
    rw [parseLines_wellFormed _ [] [] hwf]
    simp only [List.nil_append, List.map_map]
    congr 1
    · apply List.map_congr_left
      intro r hr
      simp [Function.comp, Row.fields_text r (hvalid r hr)]
    · apply List.map_congr_left
      intro r hr
      simp [Function.comp, Row.fields_text r (hvalid r hr)]
  rw [hmain]
  simp

set_option maxRecDepth 100000 in
theorem parseInput_rows_witness :
    (∀ r ∈ [Row.mk "3".toList "   ".toList "4".toList, Row.mk "-4".toList " \t".toList "+3".toList],
        r.valid = true) ∧
      TrimSpace "\n3   4\n-4 \t+3\n".toList =
        joinLines ([Row.mk "3".toList "   ".toList "4".toList,
          Row.mk "-4".toList " \t".toList "+3".toList].map Row.text) ∧
      parseInput "\n3   4\n-4 \t+3\n".toList = ⟨[3, -4], [4, 3], none⟩ :=
  ⟨by decide, by decide,
    (parseInput_rows "\n3   4\n-4 \t+3\n".toList
      [Row.mk "3".toList "   ".toList "4".toList, Row.mk "-4".toList " \t".toList "+3".toList]
      (by simp) (by decide) (by decide)).1⟩

/-- C5: when some line of the trimmed text splits into a number of tokens other than
two, `parseInput` returns an error and two `nil` lists, whatever lines precede or follow
it; when every earlier line is well-formed, the error message is `invalid input line: `
followed by the offending line. -/
theorem parseInput_malformed_line (data : List Char) (pre : List (List Char))
    (bad : List Char) (post : List (List Char))
    (hsplit : Split (TrimSpace data) = pre ++ bad :: post)
    (hbad : (Fields bad).length ≠ 2) :
    (parseInput data).err ≠ none ∧ (parseInput data).left = [] ∧
      (parseInput data).right = [] ∧
      ((∀ l ∈ pre, wellFormedLine l = true) →
        (parseInput data).err = some (.errorf ("invalid input line: ".toList ++ bad))) := by
  have herr : (parseInput data).err ≠ none := by
    unfold parseInput
    simp only [hsplit]
    exact parseLines_bad_line pre bad post hbad [] []
  have hnil := parseLines_err (Split (TrimSpace data)) [] [] herr
  refine ⟨herr, hnil.1, hnil.2, fun hpre => ?_⟩
  unfold parseInput
  simp only [hsplit]
  rw [parseLines_bad_line_after_wellFormed pre bad post hbad hpre]
  rfl

set_option maxRecDepth 100000 in
theorem parseInput_malformed_line_witness :
    Split (TrimSpace "1 2\n3 4 5\n6 7".toList) = ["1 2".toList] ++ "3 4 5".toList :: ["6 7".toList] ∧
      (Fields "3 4 5".toList).length ≠ 2 ∧
      (∀ l ∈ ["1 2".toList], wellFormedLine l = true) ∧
      (parseInput "1 2\n3 4 5\n6 7".toList).left = [] ∧
      (parseInput "1 2\n3 4 5\n6 7".toList).right = [] ∧
      (parseInput "1 2\n3 4 5\n6 7".toList).err
        = some (.errorf "invalid input line: 3 4 5".toList) :=
  ⟨by decide, by decide, by decide,
    (parseInput_malformed_line "1 2\n3 4 5\n6 7".toList ["1 2".toList] "3 4 5".toList
      ["6 7".toList] (by decide) (by decide)).2.1,
    (parseInput_malformed_line "1 2\n3 4 5\n6 7".toList ["1 2".toList] "3 4 5".toList
      ["6 7".toList] (by decide) (by decide)).2.2.1,
    (parseInput_malformed_line "1 2\n3 4 5\n6 7".toList ["1 2".toList] "3 4 5".toList
      ["6 7".toList] (by decide) (by decide)).2.2.2 (by decide)⟩

set_option maxRecDepth 100000 in
/-- C6, as stated, fails: the single line `12abc 5` has exactly two tokens, the token
`12abc` is not a base-10 integer literal, and `parseInput` succeeds, reading it as 12. -/
theorem parseInput_accepts_digit_prefix :
    (∀ line ∈ Split (TrimSpace "12abc 5".toList), (Fields line).length = 2) ∧
      (∃ line ∈ Split (TrimSpace "12abc 5".toList), ∃ tok ∈ Fields line,
        isIntLiteral tok = false) ∧
      parseInput "12abc 5".toList = ⟨[12], [5], none⟩ := by
  refine ⟨by decide, ⟨"12abc 5".toList, by decide, "12abc".toList, by decide, by decide⟩, by decide⟩

/-- C6, amended: when every line has exactly two tokens and some token does not begin
with a base-10 integer literal within `int` range (an optional sign followed by the
maximal run of leading decimal digits, at least one, whose value fits in an `int`),
`parseInput` returns an error and no lists. -/
theorem parseInput_bad_token (data : List Char)
    (hlen : ∀ line ∈ Split (TrimSpace data), (Fields line).length = 2)
    (hbad : ∃ line ∈ Split (TrimSpace data), ∃ tok ∈ Fields line,
      hasLeadingInt tok = false) :
    (parseInput data).err ≠ none ∧ (parseInput data).left = [] ∧
      (parseInput data).right = [] := by
  have herr : (parseInput data).err ≠ none :=
    parseLines_bad_token _ hlen hbad [] []
  have hnil := parseLines_err (Split (TrimSpace data)) [] [] herr
  exact ⟨herr, hnil.1, hnil.2⟩

set_option maxRecDepth 100000 in
theorem parseInput_bad_token_witness :
    (∀ line ∈ Split (TrimSpace "1 2\n99999999999999999999abc 5\nabc 7".toList),
        (Fields line).length = 2) ∧
      hasLeadingInt "99999999999999999999abc".toList = false ∧
      hasLeadingInt "abc".toList = false ∧
      hasLeadingInt "12abc".toList = true ∧
      (parseInput "1 2\n99999999999999999999abc 5\nabc 7".toList).err ≠ none ∧
      (parseInput "1 2\n99999999999999999999abc 5\nabc 7".toList).left = [] :=
  ⟨by decide, by decide, by decide, by decide,
    (parseInput_bad_token "1 2\n99999999999999999999abc 5\nabc 7".toList (by decide)
      ⟨"99999999999999999999abc 5".toList, by decide, "99999999999999999999abc".toList,
        by decide, by decide⟩).1,
    (parseInput_bad_token "1 2\n99999999999999999999abc 5\nabc 7".toList (by decide)
      ⟨"99999999999999999999abc 5".toList, by decide, "99999999999999999999abc".toList,
        by decide, by decide⟩).2.1⟩

set_option maxRecDepth 100000 in
/-- C7, as stated, fails: on the empty input and on an input of white space only,
`parseInput` returns an error, not two empty sequences. -/
theorem parseInput_empty_is_error :
    parseInput [] = ⟨[], [], some (.errorf "invalid input line: ".toList)⟩ ∧
      parseInput " \n\t ".toList = ⟨[], [], some (.errorf "invalid input line: ".toList)⟩ := by
  decide

/-- C7, amended: for every input that is empty or consists only of white space,
`parseInput` returns the error `invalid input line: ` (with an empty line) and two `nil`
lists. -/
theorem parseInput_all_space (data : List Char) (h : ∀ c ∈ data, isSpace c = true) :
    parseInput data = ⟨[], [], some (.errorf "invalid input line: ".toList)⟩ := by
  unfold parseInput
  rw [TrimSpace_of_all_space data h]
  rfl

theorem parseInput_all_space_witness :
    (∀ c ∈ " \r\n\t".toList, isSpace c = true) ∧
      parseInput " \r\n\t".toList = ⟨[], [], some (.errorf "invalid input line: ".toList)⟩ :=
  ⟨by decide, parseInput_all_space _ (by decide)⟩

/-! ## The cookie `fetchData` sends -/

set_option maxRecDepth 100000 in
/-- The cookie value as `req.AddCookie` writes it: a semicolon is dropped, a plain token
is kept, a value with a space is put between double quotes; and the one request a run
sends is a GET of the day's input with the cookie `session`. -/
theorem fetchData_cookie_examples :
    sanitizeCookieValue "a;b".toList = "ab".toList ∧
      sanitizeCookieValue "53616c7465645f5f".toList = "53616c7465645f5f".toList ∧
      sanitizeCookieValue "a b".toList = [Char.ofNat 0x22, 'a', ' ', 'b', Char.ofNat 0x22] ∧
      fetchDataRequests ⟨fun _ _ => none, fun _ => .error []⟩
          "https://adventofcode.com/2024/day/1/input".toList "a;b".toList =
        [⟨"GET".toList, "https://adventofcode.com/2024/day/1/input".toList,
          "session".toList, "ab".toList⟩] := by
  decide

/-! ## Claims about `fetchData` -/

/-- C10: with the HTTP exchange yielding a response (status, body), `fetchData` returns
the full body as data with no error if and only if the status is 200; for every other
status it returns no data and an error whose message contains the decimal status code
(the base-10 numeral that denotes the status) and the response body. -/
theorem fetchData_status (net : Transport) (url sessionCookie : List Char) (resp : Response)
    (hreq : net.NewRequest "GET".toList url = none)
    (hdo : net.Do ⟨"GET".toList, url, "session".toList, sanitizeCookieValue sessionCookie⟩
      = .ok resp) :
    (resp.readErr = none →
        (((fetchData net url sessionCookie).data = resp.Body ∧
            (fetchData net url sessionCookie).err = none) ↔ resp.StatusCode = 200)) ∧
      (resp.StatusCode ≠ 200 →
        (fetchData net url sessionCookie).data = [] ∧
          ∃ e, (fetchData net url sessionCookie).err = some e ∧
            e.message = "HTTP request failed with status code ".toList ++
              formatInt resp.StatusCode ++ ", response: ".toList ++ resp.Body ∧
            formatInt resp.StatusCode <:+: e.message ∧ resp.Body <:+: e.message ∧
            isIntLiteral (formatInt resp.StatusCode) = true ∧
            literalValue (formatInt resp.StatusCode) = resp.StatusCode) := by
  by_cases hs : resp.StatusCode = 200
  · have hfd : fetchData net url sessionCookie =
        match resp.readErr with
        | some e => ⟨resp.Body, some (.read e)⟩
        | none => ⟨resp.Body, none⟩ := by
      simp only [fetchData, hreq, hdo, StatusOK, hs, ne_eq, not_true_eq_false, if_false]
    refine ⟨fun hread => ?_, fun h => absurd hs h⟩
    rw [hfd, hread]
    simp [hs]
  · have hfd : fetchData net url sessionCookie =
        ⟨[], some (.errorf ("HTTP request failed with status code ".toList ++
          formatInt resp.StatusCode ++ ", response: ".toList ++ resp.Body))⟩ := by
      simp only [fetchData, hreq, hdo, StatusOK, hs, ne_eq, not_false_eq_true, if_true]
    refine ⟨fun _ => ?_, fun _ => ?_⟩
    · rw [hfd]
      simp [hs]
    · rw [hfd]
      refine ⟨rfl, _, rfl, rfl, ?_, ?_, (formatInt_spec _).1, (formatInt_spec _).2⟩
      · exact ⟨"HTTP request failed with status code ".toList,
          ", response: ".toList ++ resp.Body, by simp [FetchError.message]⟩
      · exact ⟨"HTTP request failed with status code ".toList ++
          formatInt resp.StatusCode ++ ", response: ".toList, [], by simp [FetchError.message]⟩

set_option maxRecDepth 100000 in
theorem fetchData_status_witness :
    (fetchData ⟨fun _ _ => none, fun _ => .ok ⟨404, "Not Found".toList, none⟩⟩
        "https://adventofcode.com/2024/day/1/input".toList "abc".toList).data = [] ∧
      ∃ e, (fetchData ⟨fun _ _ => none, fun _ => .ok ⟨404, "Not Found".toList, none⟩⟩
          "https://adventofcode.com/2024/day/1/input".toList "abc".toList).err = some e ∧
        e.message =
          "HTTP request failed with status code 404, response: Not Found".toList ∧
        "404".toList <:+: e.message ∧ "Not Found".toList <:+: e.message :=
  match (fetchData_status ⟨fun _ _ => none, fun _ => .ok ⟨404, "Not Found".toList, none⟩⟩
    "https://adventofcode.com/2024/day/1/input".toList "abc".toList
    ⟨404, "Not Found".toList, none⟩ rfl rfl).2 (by decide) with
  | ⟨hdata, e, he, hmsg, hcode, hbody, _, _⟩ =>
    ⟨hdata, e, he, hmsg.trans (by decide),
      (show "404".toList = formatInt 404 by decide) ▸ hcode, hbody⟩

/-! ## Algebra of the similarity score -/

theorem similaritySum_append_left (l1 l2 r : List Int) :
    similaritySum (l1 ++ l2) r = similaritySum l1 r + similaritySum l2 r := by
  simp [similaritySum]

theorem similaritySum_append_right (l r1 r2 : List Int) :
    similaritySum l (r1 ++ r2) = similaritySum l r1 + similaritySum l r2 := by
  induction l with
  | nil => simp [similaritySum]
  | cons a rest ih =>
    simp only [similaritySum, List.map_cons, List.sum_cons, List.count_append,
      Nat.cast_add] at ih ⊢
    rw [ih]
    ring

theorem similaritySum_singleton_right (l : List Int) (x : Int) :
    similaritySum l [x] = x * (l.count x : Int) := by
  induction l with
  | nil => simp [similaritySum]
  | cons a rest ih =>
    simp only [similaritySum, List.map_cons, List.sum_cons] at ih ⊢
    rw [ih]
    by_cases h : a = x
    · subst h
      simp
      ring
    · have h2 : ¬ x = a := fun e => h e.symm
      have h3 : (a == x) = false := by simpa using h
      simp [List.count_cons, List.count_nil, h2, h3]

theorem similaritySum_comm (xs ys : List Int) :
    similaritySum xs ys = similaritySum ys xs := by
  induction xs with
  | nil => rw [similaritySum_nil_right]; rfl
  | cons x rest ih =>
    have h1 : similaritySum (x :: rest) ys = x * (ys.count x : Int) + similaritySum rest ys := by
      simp [similaritySum]
    have h2 : similaritySum ys (x :: rest) = similaritySum ys [x] + similaritySum ys rest :=
      similaritySum_append_right ys [x] rest
    rw [h1, h2, similaritySum_singleton_right, ih]

theorem similaritySum_eq_distinctSum (xs ys : List Int) :
    similaritySum xs ys = distinctSum xs ys := by
  unfold similaritySum distinctSum
  rw [Finset.sum_list_map_count, ← List.sum_toFinset _ (List.nodup_dedup _)]
  have hD : (xs ++ ys).dedup.toFinset = (xs ++ ys).toFinset := by
    ext v
    simp
  rw [hD]
  have hsub : xs.toFinset ⊆ (xs ++ ys).toFinset := by
    intro v hv
    simp only [List.mem_toFinset, List.mem_append] at hv ⊢
    exact Or.inl hv
  rw [← Finset.sum_subset hsub]
  · apply Finset.sum_congr rfl
    intro v _
    simp only [nsmul_eq_mul]
    ring
  · intro v _ hv
    have : xs.count v = 0 := List.count_eq_zero.mpr (by simpa using hv)
    simp [this]

theorem similaritySum_filter_mem (left right : List Int) :
    similaritySum (left.filter (fun v => decide (v ∈ right))) right = similaritySum left right := by
  induction left with
  | nil => rfl
  | cons a rest ih =>
    by_cases h : a ∈ right
    · simp only [similaritySum, List.filter_cons, h, decide_True, if_true, List.map_cons,
        List.sum_cons] at ih ⊢
      rw [ih]
    · have hc : right.count a = 0 := List.count_eq_zero.mpr h
      simp only [similaritySum, List.filter_cons, h, decide_False, Bool.false_eq_true, if_false,
        List.map_cons, List.sum_cons, hc] at ih ⊢
      rw [ih]
      simp

/-! ## More claims about `computeSimilarityScore` -/

/-- C14: left values that never occur in `right` contribute nothing: the score is
unchanged when every element of `left` that does not occur in `right` is removed; as an
instance the score of `[1, 2]` and `[1, 1]` is `1*2 + 2*0 = 2`. -/
theorem computeSimilarityScore_filter (left right : List Int) :
    computeSimilarityScore left right =
        computeSimilarityScore (left.filter (fun v => decide (v ∈ right))) right ∧
      computeSimilarityScore [1, 2] [1, 1] = 1 * 2 + 2 * 0 ∧
      computeSimilarityScore [1, 2] [1, 1] = 2 := by
  refine ⟨?_, ?_, ?_⟩
  · rw [computeSimilarityScore_eq_wrapInt, computeSimilarityScore_eq_wrapInt,
      similaritySum_filter_mem]
  · rw [computeSimilarityScore_eq_wrapInt]
    exact wrapInt_of_inIntRange (by decide)
  · rw [computeSimilarityScore_eq_wrapInt]
    exact wrapInt_of_inIntRange (by decide)

/-- C15: `computeSimilarityScore` is symmetric in its two arguments, and both sides are
the sum over the distinct values `v` of `v` times the count of `v` in `xs` times the
count of `v` in `ys`, in Go `int` arithmetic. -/
theorem computeSimilarityScore_comm (xs ys : List Int) :
    computeSimilarityScore xs ys = computeSimilarityScore ys xs ∧
      computeSimilarityScore xs ys = wrapInt (distinctSum xs ys) ∧
      computeSimilarityScore ys xs = wrapInt (distinctSum xs ys) := by
  refine ⟨?_, ?_, ?_⟩
  · rw [computeSimilarityScore_eq_wrapInt, computeSimilarityScore_eq_wrapInt,
      similaritySum_comm]
  · rw [computeSimilarityScore_eq_wrapInt, similaritySum_eq_distinctSum]
  · rw [computeSimilarityScore_eq_wrapInt, similaritySum_comm, similaritySum_eq_distinctSum]

/-- C16: `computeSimilarityScore` is additive under concatenation in each argument,
with `+` the addition of Go `int`s; the equations hold over the integers whenever the
sum of the two scores fits in an `int`. -/
theorem computeSimilarityScore_append (l1 l2 l r r1 r2 : List Int) :
    computeSimilarityScore (l1 ++ l2) r =
        addInt (computeSimilarityScore l1 r) (computeSimilarityScore l2 r) ∧
      computeSimilarityScore l (r1 ++ r2) =
        addInt (computeSimilarityScore l r1) (computeSimilarityScore l r2) ∧
      (inIntRange (computeSimilarityScore l1 r + computeSimilarityScore l2 r) →
        computeSimilarityScore (l1 ++ l2) r =
          computeSimilarityScore l1 r + computeSimilarityScore l2 r) ∧
      (inIntRange (computeSimilarityScore l r1 + computeSimilarityScore l r2) →
        computeSimilarityScore l (r1 ++ r2) =
          computeSimilarityScore l r1 + computeSimilarityScore l r2) := by
  have hleft : computeSimilarityScore (l1 ++ l2) r =
      addInt (computeSimilarityScore l1 r) (computeSimilarityScore l2 r) := by
    unfold addInt
    rw [computeSimilarityScore_eq_wrapInt, similaritySum_append_left]
    exact wrapInt_congr
      ((computeSimilarityScore_modEq l1 r).add (computeSimilarityScore_modEq l2 r)).symm
  have hright : computeSimilarityScore l (r1 ++ r2) =
      addInt (computeSimilarityScore l r1) (computeSimilarityScore l r2) := by
    unfold addInt
    rw [computeSimilarityScore_eq_wrapInt, similaritySum_append_right]
    exact wrapInt_congr
      ((computeSimilarityScore_modEq l r1).add (computeSimilarityScore_modEq l r2)).symm
  refine ⟨hleft, hright, fun h => ?_, fun h => ?_⟩
  · rw [hleft, addInt, wrapInt_of_inIntRange h]
  · rw [hright, addInt, wrapInt_of_inIntRange h]

set_option maxRecDepth 100000 in
theorem computeSimilarityScore_append_witness :
    inIntRange (computeSimilarityScore [3, 4] [4, 3, 3] + computeSimilarityScore [2, 3] [4, 3, 3]) ∧
      computeSimilarityScore ([3, 4] ++ [2, 3]) [4, 3, 3] =
        computeSimilarityScore [3, 4] [4, 3, 3] + computeSimilarityScore [2, 3] [4, 3, 3] ∧
      inIntRange (computeSimilarityScore [3, 4, 3] [4, 3] + computeSimilarityScore [3, 4, 3] [5, 3]) ∧
      computeSimilarityScore [3, 4, 3] ([4, 3] ++ [5, 3]) =
        computeSimilarityScore [3, 4, 3] [4, 3] + computeSimilarityScore [3, 4, 3] [5, 3] :=
  ⟨by decide,
    (computeSimilarityScore_append [3, 4] [2, 3] [] [4, 3, 3] [] []).2.2.1 (by decide),
    by decide,
    (computeSimilarityScore_append [] [] [3, 4, 3] [] [4, 3] [5, 3]).2.2.2 (by decide)⟩

/-! ## More about `strings.TrimSpace` and `strings.Split` -/

theorem TrimSpace_append_left (a s : List Char) (ha : ∀ c ∈ a, isSpace c = true) :
    TrimSpace (a ++ s) = TrimSpace s := by
  unfold TrimSpace
  rw [List.dropWhile_append_of_pos ha]

theorem TrimSpace_append_right (s b : List Char) (hb : ∀ c ∈ b, isSpace c = true) :
    TrimSpace (s ++ b) = TrimSpace s := by
  unfold TrimSpace
  rw [List.dropWhile_append]
  by_cases h : (List.dropWhile isSpace s).isEmpty = true
  · have hnil : List.dropWhile isSpace s = [] := by simpa using h
    rw [if_pos h, List.dropWhile_eq_nil_iff.mpr hb, hnil]
  · simp only [h, Bool.false_eq_true, if_false, List.reverse_append]
    rw [List.dropWhile_append_of_pos (fun c hc => hb c (List.mem_reverse.mp hc))]

theorem isSpace_of_isBlank {c : Char} (h : isBlank c = true) : isSpace c = true := by
  simp only [isBlank, Bool.or_eq_true, beq_iff_eq] at h
  rcases h with ((h | h) | h) | h <;> subst h <;> decide

theorem splitAux_ne_nil (sep : Char) (s cur : List Char) : splitAux sep cur s ≠ [] := by
  induction s generalizing cur with
  | nil => simp [splitAux]
  | cons c cs ih =>
    by_cases h : c = sep
    · simp [splitAux, h]
    · simp only [splitAux, h, if_false]
      exact ih _

/-! ## More claims about `parseInput` -/

/-- C13: `parseInput` ignores white space around the whole input: for strings `a` and
`b` made only of spaces, tabs, newlines and carriage returns, `parseInput (a ++ s ++ b)`
returns what `parseInput s` returns, the same lists or the same failure. -/
theorem parseInput_trim (s a b : List Char) (ha : ∀ c ∈ a, isBlank c = true)
    (hb : ∀ c ∈ b, isBlank c = true) :
    parseInput (a ++ s ++ b) = parseInput s := by
  unfold parseInput
  rw [TrimSpace_append_right _ b (fun c hc => isSpace_of_isBlank (hb c hc)),
    TrimSpace_append_left a s (fun c hc => isSpace_of_isBlank (ha c hc))]

set_option maxRecDepth 100000 in
theorem parseInput_trim_witness :
    (∀ c ∈ " \t\r\n".toList, isBlank c = true) ∧ (∀ c ∈ "\n\n \r\n".toList, isBlank c = true) ∧
      parseInput (" \t\r\n".toList ++ "3   4\n4   3".toList ++ "\n\n \r\n".toList) =
        parseInput "3   4\n4   3".toList ∧
      parseInput "3   4\n4   3".toList = ⟨[3, 4], [4, 3], none⟩ :=
  ⟨by decide, by decide, parseInput_trim _ _ _ (by decide) (by decide), by decide⟩

/-- C17: whenever `parseInput` succeeds, the number of pairs it returns is the number of
newline-separated lines of the trimmed input, so both returned lists are non-empty: it
never succeeds with zero pairs. -/
theorem parseInput_length_lines (data : List Char) (h : (parseInput data).err = none) :
    (parseInput data).left.length = (Split (TrimSpace data)).length ∧
      (parseInput data).right.length = (Split (TrimSpace data)).length ∧
      (parseInput data).left ≠ [] ∧ (parseInput data).right ≠ [] := by
  unfold parseInput at h ⊢
  obtain ⟨h1, h2⟩ := parseLines_length _ [] [] h
  have hpos : 0 < (Split (TrimSpace data)).length :=
    List.length_pos.mpr (splitAux_ne_nil _ _ _)
  simp only [List.length_nil, Nat.zero_add] at h1 h2
  refine ⟨h1, h2, ?_, ?_⟩
  · intro hnil
    rw [hnil] at h1
    simp only [List.length_nil] at h1
    omega
  · intro hnil
    rw [hnil] at h2
    simp only [List.length_nil] at h2
    omega

set_option maxRecDepth 100000 in
theorem parseInput_length_lines_witness :
    (parseInput "3   4\n4   3\n".toList).err = none ∧
      (parseInput "3   4\n4   3\n".toList).left.length = 2 ∧
      (Split (TrimSpace "3   4\n4   3\n".toList)).length = 2 ∧
      (parseInput "3   4\n4   3\n".toList).left ≠ [] :=
  ⟨by decide,
    (parseInput_length_lines "3   4\n4   3\n".toList (by decide)).1.trans (by decide),
    by decide,
    (parseInput_length_lines "3   4\n4   3\n".toList (by decide)).2.2.1⟩

/-! ## Claims about `main` -/

/-- Once the configuration is present, `main` prints and exits as `run` does on the
values returned by `fetchData`. -/
theorem main_eq_run (env : Env) (hload : env.Load = none)
    (hsession : env.Getenv "SESSION".toList ≠ []) :
    (main env).stdout = (run env.scanText (fetchData env.net
        ("https://adventofcode.com/2024/day/".toList ++ formatInt 1 ++ "/input".toList)
        (env.Getenv "SESSION".toList))).stdout ∧
      (main env).status = (run env.scanText (fetchData env.net
        ("https://adventofcode.com/2024/day/".toList ++ formatInt 1 ++ "/input".toList)
        (env.Getenv "SESSION".toList))).status := by
  simp only [main, hload, hsession, if_false, and_self]

/-- C12: when the SESSION credential is missing (empty), the run ends with a non-zero
exit status before `fetchData` is called, and no HTTP request is sent. -/
theorem main_missing_session (env : Env) (h : env.Getenv "SESSION".toList = []) :
    (main env).status ≠ 0 ∧ (main env).fetchCalls = [] ∧ (main env).requests = [] ∧
      (env.Load = none →
        (main env).stdout = ["SESSION environment variable not set".toList]) := by
  have hone : (1 : Int) ≠ 0 := by decide
  cases hl : env.Load with
  | some err =>
    have hm : main env = ⟨[Println2 "Error loading .env file:".toList err], 1, [], []⟩ := by
      simp only [main, hl]
    rw [hm]
    exact ⟨hone, rfl, rfl, fun h => by simp at h⟩
  | none =>
    have hm : main env = ⟨["SESSION environment variable not set".toList], 1, [], []⟩ := by
      simp only [main, hl, h, if_true]
    rw [hm]
    exact ⟨hone, rfl, rfl, fun _ => rfl⟩

theorem main_missing_session_witness :
    (main ⟨none, fun _ => [], ⟨fun _ _ => none, fun _ => .ok ⟨200, "1 2".toList, none⟩⟩,
        fun _ => []⟩).status ≠ 0 ∧
      (main ⟨none, fun _ => [], ⟨fun _ _ => none, fun _ => .ok ⟨200, "1 2".toList, none⟩⟩,
        fun _ => []⟩).requests = [] :=
  ⟨(main_missing_session ⟨none, fun _ => [],
      ⟨fun _ _ => none, fun _ => .ok ⟨200, "1 2".toList, none⟩⟩, fun _ => []⟩ rfl).1,
    (main_missing_session ⟨none, fun _ => [],
      ⟨fun _ _ => none, fun _ => .ok ⟨200, "1 2".toList, none⟩⟩, fun _ => []⟩ rfl).2.2.1⟩

end Day1
